import Mathlib

/-!
Verification of the flamego/cache in-process TTL cache engine.

The development shallowly embeds the Go sources of the repository:

* `memoryItem`, `memoryStore` and their operations embed `memory.go`
  (`newMemoryItem`, `newMemoryStore`, the `heap.Interface` methods
  `Len/Less/Swap/Push/Pop`, and the public `Get/Set/Delete/Flush/GC`),
  together with the parts of Go's `container/heap` package the code calls
  (`up`, `down`, `heap.Push`, `heap.Remove`).
* `fileRead` / `fileGet` embed the read path of `file.go`
  (`fileStore.read`, `fileStore.Get`).
* `startGCLoop` embeds the background loop of `manager.startGC`.

Modelling conventions:

* `time.Time` instants and `time.Duration` lifetimes are integers on one
  timeline; `t.Before(u)` is `t < u`, `t.Add(d)` is `t + d`.
* Go pointers `*memoryItem` are modelled by giving every allocated item a
  distinct numeric identity `id` (`memoryStore.nextId` counts allocations);
  the Go map `index map[string]*memoryItem` becomes an association list
  from keys to item identities, and dereferencing a stored pointer becomes
  looking the identity up in the heap slice (`findById`).
* The `sync.RWMutex` makes every public operation atomic, so each one is a
  pure function from store state (plus the current time) to store state.
  The background goroutine spawned by an expired `Get` is a later `Delete`
  transition; `Reachable` closes the state space under all operations.
* Cache values (`interface{}`) are an opaque type parameter `Val`.
-/

namespace FlamegoCache

/-- One in-memory cache item, embedding Go struct `memoryItem`:
`key`, `value`, `expiredAt time.Time`, and `index int` (the position in the
heap, maintained by the `heap.Interface` methods).  The extra field `id`
models the identity of the Go heap allocation (`*memoryItem`). -/
structure memoryItem (Val : Type) where
  id : Nat
  key : String
  value : Val
  expiredAt : Int
  index : Int
deriving DecidableEq

/-- The identity-and-payload part of an item: everything except the
mutable heap position `index`.  Heap reorderings permute item cores. -/
structure itemCore (Val : Type) where
  id : Nat
  key : String
  value : Val
  expiredAt : Int
deriving DecidableEq

/-- Forget the heap position of an item. -/
def core {Val : Type} (it : memoryItem Val) : itemCore Val :=
  { id := it.id, key := it.key, value := it.value, expiredAt := it.expiredAt }

/-- The in-memory store, embedding Go struct `memoryStore`: the slice
`heap []*memoryItem` and the map `index map[string]*memoryItem`
(keys mapped to item identities).  `nextId` models the allocator that
hands out fresh `*memoryItem` identities. -/
structure memoryStore (Val : Type) where
  heap : List (memoryItem Val)
  index : List (String × Nat)
  nextId : Nat
deriving DecidableEq

/-- `newMemoryStore`: empty heap, empty index. -/
def newMemoryStore (Val : Type) : memoryStore Val :=
  { heap := [], index := [], nextId := 0 }

/-- Go map deletion `delete(m, key)` on the association-list model. -/
def mapDel : List (String × Nat) → String → List (String × Nat)
  | [], _ => []
  | p :: rest, key => if p.1 = key then mapDel rest key else p :: mapDel rest key

/-- Go map assignment `m[key] = id` on the association-list model. -/
def mapSet (m : List (String × Nat)) (key : String) (id : Nat) : List (String × Nat) :=
  (key, id) :: mapDel m key

/-- Go map lookup `m[key]` on the association-list model. -/
def mapLookup : List (String × Nat) → String → Option Nat
  | [], _ => none
  | p :: rest, key => if p.1 = key then some p.2 else mapLookup rest key

/-- Dereference a stored `*memoryItem`: find the item with the given
identity in the heap slice. -/
def findById {Val : Type} (h : List (memoryItem Val)) (i : Nat) : Option (memoryItem Val) :=
  h.find? (fun it => it.id == i)

/-- `memoryStore.Less i j`: `s.heap[i].expiredAt.Before(s.heap[j].expiredAt)`.
Out-of-range positions (never reached by `container/heap` on well-formed
calls) compare as `false`. -/
def lessAt {Val : Type} (h : List (memoryItem Val)) (i j : Nat) : Bool :=
  match h[i]?, h[j]? with
  | some a, some b => decide (a.expiredAt < b.expiredAt)
  | _, _ => false

/-- Overwrite the `index` field of an item (Go mutates it through the
pointer; here the heap slice holds the updated record). -/
def setIndexField {Val : Type} (it : memoryItem Val) (i : Int) : memoryItem Val :=
  { it with index := i }

/-- `memoryStore.Swap i j`: swap the two slots and update both items'
`index` fields to their new positions. -/
def swapHeap {Val : Type} (h : List (memoryItem Val)) (i j : Nat) : List (memoryItem Val) :=
  match h[i]?, h[j]? with
  | some a, some b => (h.set i (setIndexField b (i : Int))).set j (setIndexField a (j : Int))
  | _, _ => h

/-- Parent position in the implicit binary tree: `(j - 1) / 2`. -/
def parentIdx (j : Nat) : Nat := (j - 1) / 2

/-- Implementation of `container/heap`'s `up` by structural recursion on a
fuel counter, so that the kernel can evaluate it.  The sifted position at
least halves at every step, so any `fuel ≥ j` makes the fuel-exhaustion
branch unreachable (`up_succ` below recovers the Go recurrence). -/
def upAux {Val : Type} : Nat → List (memoryItem Val) → Nat → List (memoryItem Val)
  | _, h, 0 => h
  | 0, h, _ + 1 => h
  | fuel + 1, h, j + 1 =>
    if lessAt h (j + 1) (parentIdx (j + 1)) then
      upAux fuel (swapHeap h (parentIdx (j + 1)) (j + 1)) (parentIdx (j + 1))
    else h

/-- `container/heap`'s `up`: sift position `j` towards the root while it is
`Less` than its parent.  (`up` stops at the root, where `i == j`.) -/
def up {Val : Type} (h : List (memoryItem Val)) (j : Nat) : List (memoryItem Val) :=
  upAux j h j

/-- Implementation of `container/heap`'s `down` by structural recursion on
a fuel counter, so that the kernel can evaluate it.  The sifted position
strictly increases while staying below `n`, so any `fuel ≥ n - i` makes
the fuel-exhaustion branch unreachable (`down_eq` below recovers the Go
recurrence). -/
def downAux {Val : Type} :
    Nat → List (memoryItem Val) → Nat → Nat → List (memoryItem Val) × Bool
  | 0, h, _, _ => (h, false)
  | fuel + 1, h, i, n =>
    if 2 * i + 1 < n then
      if 2 * i + 2 < n ∧ lessAt h (2 * i + 2) (2 * i + 1) = true then
        if lessAt h (2 * i + 2) i then
          ((downAux fuel (swapHeap h i (2 * i + 2)) (2 * i + 2) n).1, true)
        else (h, false)
      else
        if lessAt h (2 * i + 1) i then
          ((downAux fuel (swapHeap h i (2 * i + 1)) (2 * i + 1) n).1, true)
        else (h, false)
    else (h, false)

/-- `container/heap`'s `down`: sift position `i` away from the root inside
the prefix `[0, n)`, swapping with the smaller existing child while that
child is `Less`.  Returns the new slice and whether any swap happened
(Go's `i > i0`). -/
def down {Val : Type} (h : List (memoryItem Val)) (i n : Nat) :
    List (memoryItem Val) × Bool :=
  downAux n h i n

/-- `newMemoryItem`: a fresh item; Go leaves `index` at its zero value. -/
def newMemoryItem {Val : Type} (id : Nat) (key : String) (value : Val) (expiredAt : Int) :
    memoryItem Val :=
  { id := id, key := key, value := value, expiredAt := expiredAt, index := 0 }

/-- `memoryStore.Push` (the `heap.Interface` method): set the new item's
`index` to the current length, append it to the heap slice, and register
the key in the index map. -/
def pushStore {Val : Type} (s : memoryStore Val) (it : memoryItem Val) : memoryStore Val :=
  { s with
      heap := s.heap ++ [setIndexField it (s.heap.length : Int)],
      index := mapSet s.index it.key it.id }

/-- `container/heap`'s `heap.Push`: call the store's `Push`, then sift the
last slot up. -/
def heapPush {Val : Type} (s : memoryStore Val) (it : memoryItem Val) : memoryStore Val :=
  let s1 := pushStore s it
  { s1 with heap := up s1.heap (s1.heap.length - 1) }

/-- `memoryStore.Pop` (the `heap.Interface` method): remove the last slot,
deregister the removed item's key from the index map, and return the item
with `index` set to `-1`.  (Go would panic on an empty heap; the model
returns the store unchanged, a state `container/heap` never produces.) -/
def popStore {Val : Type} (s : memoryStore Val) : memoryStore Val × Option (memoryItem Val) :=
  match s.heap.getLast? with
  | none => (s, none)
  | some it =>
    ({ s with heap := s.heap.dropLast, index := mapDel s.index it.key },
      some (setIndexField it (-1)))

/-- `container/heap`'s `heap.Remove i`: if `i` is not the last slot, swap it
with the last slot and repair the order (`down`, and `up` when `down` did
not move), then `Pop`. -/
def heapRemove {Val : Type} (s : memoryStore Val) (i : Nat) :
    memoryStore Val × Option (memoryItem Val) :=
  if i = s.heap.length - 1 then popStore s
  else
    let h1 := swapHeap s.heap i (s.heap.length - 1)
    let r := down h1 i (s.heap.length - 1)
    let h3 := if r.2 then r.1 else up r.1 i
    popStore { s with heap := h3 }

/-- `memoryStore.Get` under the read lock: look the key up in the index
map; absent keys and keys whose `expiredAt` is not after `now` yield the
Go `nil` result (modelled as `none`); otherwise the stored value is
returned.  The synchronous path never mutates the store; the asynchronous
cleanup it spawns on an expired hit is a later `Delete` transition. -/
def memoryStore.Get {Val : Type} (s : memoryStore Val) (key : String) (now : Int) :
    Option Val :=
  match mapLookup s.index key with
  | none => none
  | some id =>
    match findById s.heap id with
    | none => none
    | some item => if ¬ now < item.expiredAt then none else some item.value

/-- `memoryStore.Set`: allocate a new item whose expiry is
`now + lifetime` and `heap.Push` it.  (No lookup of an existing entry is
performed by the source.) -/
def memoryStore.Set {Val : Type} (s : memoryStore Val) (key : String) (value : Val)
    (lifetime now : Int) : memoryStore Val :=
  heapPush { s with nextId := s.nextId + 1 }
    (newMemoryItem s.nextId key value (now + lifetime))

/-- `memoryStore.Delete`: look the key up; absent keys are a no-op,
otherwise `heap.Remove` the slot recorded in the item's `index` field. -/
def memoryStore.Delete {Val : Type} (s : memoryStore Val) (key : String) : memoryStore Val :=
  match mapLookup s.index key with
  | none => s
  | some id =>
    match findById s.heap id with
    | none => s
    | some item => (heapRemove s item.index.toNat).1

/-- `memoryStore.Flush`: fresh empty heap slice and index map. -/
def memoryStore.Flush {Val : Type} (s : memoryStore Val) : memoryStore Val :=
  { s with heap := [], index := [] }

/-- The body of `memoryStore.GC`'s `for` loop: while the heap is nonempty
and its root is expired (`expiredAt` not after `now`), `heap.Remove` the
root (the source passes `c.index`, the root item's recorded position).
The loop runs at most `heap.length` times since every iteration removes a
slot; `fuel` is initialised to that bound by `memoryStore.GC`.  The second
component collects the removed items (ghost instrumentation; the Go code
discards them). -/
def gcLoop {Val : Type} : memoryStore Val → Int → Nat → memoryStore Val × List (memoryItem Val)
  | s, _, 0 => (s, [])
  | s, now, fuel + 1 =>
    match s.heap.head? with
    | none => (s, [])
    | some c =>
      if now < c.expiredAt then (s, [])
      else
        let r := heapRemove s c.index.toNat
        let next := gcLoop r.1 now fuel
        (next.1, r.2.toList ++ next.2)

/-- `memoryStore.GC`: run the reclamation loop; the Go function's entire
return value is `nil` (`error` = `none`) on every path. -/
def memoryStore.GC {Val : Type} (s : memoryStore Val) (now : Int) :
    memoryStore Val × Option String :=
  ((gcLoop s now s.heap.length).1, none)

/-- Ghost observation: the items the reclamation loop removed (the Go code
does not return them; this counts them for specification purposes). -/
def memoryStore.gcRemoved {Val : Type} (s : memoryStore Val) (now : Int) :
    List (memoryItem Val) :=
  (gcLoop s now s.heap.length).2

/-- States reachable from `newMemoryStore` by the public operations.  The
asynchronous cleanup spawned by an expired `Get` executes as a `del`
transition; `Get` itself does not change the state. -/
inductive Reachable {Val : Type} : memoryStore Val → Prop
  | init : Reachable (newMemoryStore Val)
  | set (s : memoryStore Val) (key : String) (value : Val) (lifetime now : Int) :
      Reachable s → Reachable (s.Set key value lifetime now)
  | del (s : memoryStore Val) (key : String) :
      Reachable s → Reachable (s.Delete key)
  | flush (s : memoryStore Val) :
      Reachable s → Reachable s.Flush
  | gc (s : memoryStore Val) (now : Int) :
      Reachable s → Reachable (s.GC now).1

/-! Embedding of the read path of `file.go` (`fileStore.read`,
`fileStore.Get`).  The filesystem is modelled as an association list from
keys to stored binaries: `fileStore.filename` maps each key to a
deterministic hash path, so file contents are indexed by the key itself.
The injected `Decoder` is a parameter; its successful results are either
the expected envelope (`*fileItem`) or a value of some other type, on
which the source's type assertion `v.(*fileItem)` fails. -/

/-- The stored envelope, embedding Go struct `fileItem`
(`Value`, `ExpiredAt time.Time`). -/
structure fileItem (Val : Type) where
  Value : Val
  ExpiredAt : Int
deriving DecidableEq

/-- Result of running the injected decoder: the bytes decode to the
envelope shape, or to a value of an unexpected type (`foreign`), or the
decoder itself fails (modelled by `Except.error` in the decoder's type). -/
inductive decodedVal (Val : Type) where
  | envelope (value : Val) (expiredAt : Int)
  | foreign
deriving DecidableEq

/-- Errors the file read path can produce: `os.ErrNotExist`, a wrapped
file-read failure, or a wrapped decoder failure. -/
inductive fileError where
  | notExist
  | readFailure (msg : String)
  | decodeFailure (msg : String)
deriving DecidableEq

/-- `fileStore.read`: wrap an `os.ReadFile` failure as a read error; wrap a
decoder failure as a decode error; signal `os.ErrNotExist` only when the
decoded value is not a `*fileItem`. -/
def fileRead {Val Bin : Type} (decoder : Bin → Except String (decodedVal Val))
    (readResult : Except String Bin) : Except fileError (fileItem Val) :=
  match readResult with
  | .error e => .error (.readFailure ("read file: " ++ e))
  | .ok binary =>
    match decoder binary with
    | .error e => .error (.decodeFailure ("decode: " ++ e))
    | .ok (.envelope v exp) => .ok { Value := v, ExpiredAt := exp }
    | .ok .foreign => .error .notExist

/-- `fileStore.Get`: missing file yields `os.ErrNotExist`; a `read` error
propagates unchanged; an envelope whose `ExpiredAt` is not after `now`
yields `os.ErrNotExist` (and schedules an asynchronous delete); otherwise
the stored value is returned. -/
def fileGet {Val Bin : Type} [BEq String] (files : List (String × Bin))
    (decoder : Bin → Except String (decodedVal Val)) (key : String) (now : Int) :
    Except fileError Val :=
  match files.lookup key with
  | none => .error .notExist
  | some binary =>
    match fileRead decoder (.ok binary) with
    | .error e => .error e
    | .ok item => if ¬ item.ExpiredAt > now then .error .notExist else .ok item.Value

/-! Embedding of `manager.startGC` (`manager.go`).  The goroutine performs
one `store.GC` call, then waits on `select { case <-stop: return;
case <-ticker.C: }` and loops.  A run of the loop is determined by the
sequence of signals the waits observe: `tick` when the interval elapses
first, `stop` when the stop channel fires first.  `startGCLoop` returns
the number of `store.GC` invocations performed and whether the goroutine
has returned; an unfinished signal list leaves the goroutine waiting. -/

/-- One observation at the loop's wait boundary: the stop channel fired,
or the ticker's interval elapsed. -/
inductive gcSignal where
  | stop
  | tick
deriving DecidableEq

/-- The `manager.startGC` goroutine, run against a finite observation
sequence: `GC` once, then consume signals, performing one further `GC`
per `tick` and returning at the first `stop`. -/
def startGCLoop : List gcSignal → Nat × Bool
  | [] => (1, false)
  | .stop :: _ => (1, true)
  | .tick :: rest =>
    let next := startGCLoop rest
    (next.1 + 1, next.2)

/-- Number of `tick` signals observed before the first `stop` (all of them
when no `stop` occurs). -/
def ticksBeforeStop : List gcSignal → Nat
  | [] => 0
  | .stop :: _ => 0
  | .tick :: rest => ticksBeforeStop rest + 1

/-- Whether the observation sequence contains a `stop`. -/
def sawStop : List gcSignal → Bool
  | [] => false
  | .stop :: _ => true
  | .tick :: rest => sawStop rest

end FlamegoCache

namespace FlamegoCache

variable {Val : Type}

/-! Recurrence lemmas: the fueled `upAux`/`downAux` satisfy the Go
recurrences of `container/heap`'s `up` and `down` whenever the fuel
dominates the number of remaining steps, which the wrappers' initial fuel
always does. -/

/-- Fuel irrelevance for `upAux`: any two sufficient fuels agree. -/
theorem upAux_irrel :
    ∀ (f : Nat) (h : List (memoryItem Val)) (j f' : Nat), j ≤ f → j ≤ f' →
      upAux f h j = upAux f' h j := by
  intro f
  induction f with
  | zero =>
    intro h j f' hf _
    have hj : j = 0 := Nat.le_zero.mp hf
    subst hj
    cases f' <;> rfl
  | succ f ih =>
    intro h j f' hf hf'
    cases j with
    | zero => cases f' <;> rfl
    | succ j =>
      obtain ⟨f'', rfl⟩ : ∃ g, f' = g + 1 := ⟨f' - 1, by omega⟩
      simp only [upAux]
      split
      · exact ih _ (parentIdx (j + 1)) f''
          (by simp only [parentIdx]; omega) (by simp only [parentIdx]; omega)
      · rfl

/-- The Go `up` stops at the root. -/
theorem up_zero (h : List (memoryItem Val)) : up h 0 = h := rfl

/-- The Go recurrence of `up` at a non-root position. -/
theorem up_succ (h : List (memoryItem Val)) (j : Nat) :
    up h (j + 1) =
      if lessAt h (j + 1) (parentIdx (j + 1)) then
        up (swapHeap h (parentIdx (j + 1)) (j + 1)) (parentIdx (j + 1))
      else h := by
  simp only [up, upAux]
  split
  · exact upAux_irrel j _ (parentIdx (j + 1)) (parentIdx (j + 1))
      (by simp only [parentIdx]; omega) le_rfl
  · rfl

/-- Fuel irrelevance for `downAux`: any two sufficient fuels agree. -/
theorem downAux_irrel :
    ∀ (f : Nat) (h : List (memoryItem Val)) (i n f' : Nat), n - i ≤ f → n - i ≤ f' →
      downAux f h i n = downAux f' h i n := by
  intro f
  induction f with
  | zero =>
    intro h i n f' hf _
    have hn : ¬ 2 * i + 1 < n := by omega
    cases f' with
    | zero => rfl
    | succ g => simp only [downAux, if_neg hn]
  | succ f ih =>
    intro h i n f' hf hf'
    by_cases hn : 2 * i + 1 < n
    · obtain ⟨f'', rfl⟩ : ∃ g, f' = g + 1 := ⟨f' - 1, by omega⟩
      simp only [downAux, if_pos hn]
      split
      · split
        · rw [ih _ (2 * i + 2) n f'' (by omega) (by omega)]
        · rfl
      · split
        · rw [ih _ (2 * i + 1) n f'' (by omega) (by omega)]
        · rfl
    · cases f' with
      | zero => simp only [downAux, if_neg hn]
      | succ g => simp only [downAux, if_neg hn]

/-- The Go recurrence of `down`. -/
theorem down_eq (h : List (memoryItem Val)) (i n : Nat) :
    down h i n =
      if 2 * i + 1 < n then
        if 2 * i + 2 < n ∧ lessAt h (2 * i + 2) (2 * i + 1) = true then
          if lessAt h (2 * i + 2) i then
            ((down (swapHeap h i (2 * i + 2)) (2 * i + 2) n).1, true)
          else (h, false)
        else
          if lessAt h (2 * i + 1) i then
            ((down (swapHeap h i (2 * i + 1)) (2 * i + 1) n).1, true)
          else (h, false)
      else (h, false) := by
  cases n with
  | zero =>
    have : ¬ 2 * i + 1 < 0 := by omega
    simp only [down, downAux, if_neg this]
  | succ m =>
    by_cases hn : 2 * i + 1 < m + 1
    · have hL : down h i (m + 1) = downAux (m + 1) h i (m + 1) := rfl
      rw [hL]
      simp only [downAux, if_pos hn]
      split
      · split
        · rw [downAux_irrel m _ (2 * i + 2) (m + 1) (m + 1) (by omega) (by omega)]
          rfl
        · rfl
      · split
        · rw [downAux_irrel m _ (2 * i + 1) (m + 1) (m + 1) (by omega) (by omega)]
          rfl
        · rfl
    · have hL : down h i (m + 1) = downAux (m + 1) h i (m + 1) := rfl
      rw [hL]
      simp only [downAux, if_neg hn]

/-! Basic structure lemmas for the heap primitives. -/

/-- `lessAt` holds exactly when both positions are occupied and the first
item expires strictly earlier. -/
theorem lessAt_eq_true {h : List (memoryItem Val)} {i j : Nat} :
    lessAt h i j = true ↔
      ∃ a b, h[i]? = some a ∧ h[j]? = some b ∧ a.expiredAt < b.expiredAt := by
  simp only [lessAt]
  split
  · rename_i a b ha hb
    simp only [decide_eq_true_eq]
    constructor
    · intro hab
      exact ⟨a, b, ha, hb, hab⟩
    · rintro ⟨a', b', ha', hb', hab⟩
      rw [ha] at ha'
      rw [hb] at hb'
      cases ha'
      cases hb'
      exact hab
  · rename_i hno
    constructor
    · intro hfalse
      exact absurd hfalse (by simp)
    · rintro ⟨a', b', ha', hb', _⟩
      exact absurd (hno a' b' ha' hb') (by simp)

theorem length_swapHeap (h : List (memoryItem Val)) (i j : Nat) :
    (swapHeap h i j).length = h.length := by
  simp only [swapHeap]
  split <;> simp

theorem length_upAux :
    ∀ (f : Nat) (h : List (memoryItem Val)) (j : Nat), (upAux f h j).length = h.length := by
  intro f
  induction f with
  | zero => intro h j; cases j <;> rfl
  | succ f ih =>
    intro h j
    cases j with
    | zero => rfl
    | succ j =>
      simp only [upAux]
      split
      · rw [ih, length_swapHeap]
      · rfl

theorem length_up (h : List (memoryItem Val)) (j : Nat) : (up h j).length = h.length :=
  length_upAux j h j

theorem length_downAux :
    ∀ (f : Nat) (h : List (memoryItem Val)) (i n : Nat),
      ((downAux f h i n).1).length = h.length := by
  intro f
  induction f with
  | zero => intro h i n; rfl
  | succ f ih =>
    intro h i n
    simp only [downAux]
    split
    · split
      · split
        · rw [ih, length_swapHeap]
        · rfl
      · split
        · rw [ih, length_swapHeap]
        · rfl
    · rfl

theorem length_down (h : List (memoryItem Val)) (i n : Nat) :
    ((down h i n).1).length = h.length :=
  length_downAux n h i n

/-- Replacing the element at an occupied position and re-consing the old
occupant permutes the list with the new element consed on. -/
theorem cons_set_perm {α : Type} (b a : α) :
    ∀ (l : List α) (k : Nat), l[k]? = some b → (b :: l.set k a).Perm (a :: l) := by
  intro l
  induction l with
  | nil => intro k hk; simp at hk
  | cons c t ih =>
    intro k hk
    cases k with
    | zero =>
      simp only [List.getElem?_cons_zero, Option.some.injEq] at hk
      simp only [List.set_cons_zero]
      rw [hk]
      exact List.Perm.swap _ _ _
    | succ k =>
      simp only [List.getElem?_cons_succ] at hk
      simp only [List.set_cons_succ]
      have h1 : (b :: c :: t.set k a).Perm (c :: b :: t.set k a) := List.Perm.swap c b _
      have h2 : (c :: b :: t.set k a).Perm (c :: a :: t) := (ih k hk).cons c
      have h3 : (c :: a :: t).Perm (a :: c :: t) := List.Perm.swap a c t
      exact (h1.trans h2).trans h3

/-- Exchanging the contents of two occupied positions permutes nothing
away: the doubly-`set` list is a permutation of the original. -/
theorem set_set_perm {α : Type} :
    ∀ (l : List α) (i j : Nat) (a b : α), l[i]? = some a → l[j]? = some b →
      ((l.set i b).set j a).Perm l := by
  intro l
  induction l with
  | nil => intro i j a b ha _; simp at ha
  | cons c t ih =>
    intro i j a b ha hb
    cases i with
    | zero =>
      simp only [List.getElem?_cons_zero, Option.some.injEq] at ha
      cases j with
      | zero =>
        simp only [List.getElem?_cons_zero, Option.some.injEq] at hb
        simp only [List.set_cons_zero]
        rw [ha]
      | succ j =>
        simp only [List.getElem?_cons_succ] at hb
        simp only [List.set_cons_zero, List.set_cons_succ]
        rw [ha]
        exact cons_set_perm b a t j hb
    | succ i =>
      simp only [List.getElem?_cons_succ] at ha
      cases j with
      | zero =>
        simp only [List.getElem?_cons_zero, Option.some.injEq] at hb
        simp only [List.set_cons_succ, List.set_cons_zero]
        rw [hb]
        exact cons_set_perm a b t i ha
      | succ j =>
        simp only [List.getElem?_cons_succ] at hb
        simp only [List.set_cons_succ]
        exact (ih i j a b ha hb).cons c

/-- Bound extraction from an indexing equation. -/
theorem lt_length_of_getElem? {α : Type} {l : List α} {i : Nat} {a : α}
    (h : l[i]? = some a) : i < l.length :=
  (List.getElem?_eq_some_iff.mp h).1

theorem swapHeap_of_eq {h : List (memoryItem Val)} {i j : Nat} {a b : memoryItem Val}
    (ha : h[i]? = some a) (hb : h[j]? = some b) :
    swapHeap h i j =
      (h.set i (setIndexField b (i : Int))).set j (setIndexField a (j : Int)) := by
  simp only [swapHeap, ha, hb]

theorem getElem?_swapHeap_right {h : List (memoryItem Val)} {i j : Nat}
    {a b : memoryItem Val} (ha : h[i]? = some a) (hb : h[j]? = some b) :
    (swapHeap h i j)[j]? = some (setIndexField a (j : Int)) := by
  rw [swapHeap_of_eq ha hb]
  exact List.getElem?_set_self (by rw [List.length_set]; exact lt_length_of_getElem? hb)

theorem getElem?_swapHeap_left {h : List (memoryItem Val)} {i j : Nat}
    {a b : memoryItem Val} (hij : i ≠ j) (ha : h[i]? = some a) (hb : h[j]? = some b) :
    (swapHeap h i j)[i]? = some (setIndexField b (i : Int)) := by
  rw [swapHeap_of_eq ha hb, List.getElem?_set_ne (Ne.symm hij)]
  exact List.getElem?_set_self (lt_length_of_getElem? ha)

theorem getElem?_swapHeap_other {h : List (memoryItem Val)} {i j k : Nat}
    (hki : k ≠ i) (hkj : k ≠ j) : (swapHeap h i j)[k]? = h[k]? := by
  simp only [swapHeap]
  split
  · rw [List.getElem?_set_ne (Ne.symm hkj), List.getElem?_set_ne (Ne.symm hki)]
  · rfl

theorem core_setIndexField (it : memoryItem Val) (k : Int) :
    core (setIndexField it k) = core it := rfl

/-- `Swap` only reorders the heap: the item cores are permuted. -/
theorem map_core_swapHeap {h : List (memoryItem Val)} {i j : Nat}
    (hi : i < h.length) (hj : j < h.length) :
    ((swapHeap h i j).map core).Perm (h.map core) := by
  have ha : h[i]? = some h[i] := List.getElem?_eq_getElem hi
  have hb : h[j]? = some h[j] := List.getElem?_eq_getElem hj
  rw [swapHeap_of_eq ha hb, List.map_set, List.map_set, core_setIndexField,
    core_setIndexField]
  apply set_set_perm
  · rw [List.getElem?_map, ha]
    rfl
  · rw [List.getElem?_map, hb]
    rfl

/-- Bounds of the positions compared by a successful `Less`. -/
theorem lessAt_bounds {h : List (memoryItem Val)} {i j : Nat}
    (hl : lessAt h i j = true) : i < h.length ∧ j < h.length := by
  obtain ⟨a, b, ha, hb, _⟩ := lessAt_eq_true.mp hl
  exact ⟨lt_length_of_getElem? ha, lt_length_of_getElem? hb⟩

theorem map_core_upAux :
    ∀ (f : Nat) (h : List (memoryItem Val)) (j : Nat),
      ((upAux f h j).map core).Perm (h.map core) := by
  intro f
  induction f with
  | zero =>
    intro h j
    cases j <;> exact List.Perm.refl _
  | succ f ih =>
    intro h j
    cases j with
    | zero => exact List.Perm.refl _
    | succ j =>
      simp only [upAux]
      split
      · rename_i hl
        obtain ⟨hj1, hpar⟩ := lessAt_bounds hl
        exact (ih _ _).trans (map_core_swapHeap hpar hj1)
      · exact List.Perm.refl _

theorem map_core_up (h : List (memoryItem Val)) (j : Nat) :
    ((up h j).map core).Perm (h.map core) :=
  map_core_upAux j h j

theorem map_core_downAux :
    ∀ (f : Nat) (h : List (memoryItem Val)) (i n : Nat),
      (((downAux f h i n).1).map core).Perm (h.map core) := by
  intro f
  induction f with
  | zero => intro h i n; exact List.Perm.refl _
  | succ f ih =>
    intro h i n
    simp only [downAux]
    split
    · split
      · split
        · rename_i hl
          obtain ⟨hc, hi⟩ := lessAt_bounds hl
          exact (ih _ _ _).trans (map_core_swapHeap hi hc)
        · exact List.Perm.refl _
      · split
        · rename_i hl
          obtain ⟨hc, hi⟩ := lessAt_bounds hl
          exact (ih _ _ _).trans (map_core_swapHeap hi hc)
        · exact List.Perm.refl _
    · exact List.Perm.refl _

theorem map_core_down (h : List (memoryItem Val)) (i n : Nat) :
    (((down h i n).1).map core).Perm (h.map core) :=
  map_core_downAux n h i n

/-! Position correctness: every heap slot's item records its own position
in its `index` field.  This is the Go invariant that `heap.Interface`
maintains through `Swap`, `Push` and `Pop`. -/

/-- Each occupied slot holds an item whose `index` field equals the slot's
position. -/
def posOK (h : List (memoryItem Val)) : Prop :=
  ∀ (k : Nat) (a : memoryItem Val), h[k]? = some a → a.index = (k : Int)

theorem swapHeap_left_none {h : List (memoryItem Val)} {i j : Nat}
    (hi : h[i]? = none) : swapHeap h i j = h := by
  unfold swapHeap
  cases hj : h[j]? <;> simp [hi, hj]

theorem swapHeap_right_none {h : List (memoryItem Val)} {i j : Nat}
    (hj : h[j]? = none) : swapHeap h i j = h := by
  unfold swapHeap
  cases hi : h[i]? <;> simp [hi, hj]

theorem posOK_swapHeap {h : List (memoryItem Val)} {i j : Nat} (hp : posOK h) :
    posOK (swapHeap h i j) := by
  intro k a hk
  by_cases hilen : i < h.length
  · by_cases hjlen : j < h.length
    · have ha : h[i]? = some h[i] := List.getElem?_eq_getElem hilen
      have hb : h[j]? = some h[j] := List.getElem?_eq_getElem hjlen
      by_cases hkj : k = j
      · subst hkj
        rw [getElem?_swapHeap_right ha hb] at hk
        cases hk
        rfl
      · by_cases hki : k = i
        · subst hki
          rw [getElem?_swapHeap_left (by omega) ha hb] at hk
          cases hk
          rfl
        · rw [getElem?_swapHeap_other hki hkj] at hk
          exact hp k a hk
    · rw [swapHeap_right_none (List.getElem?_eq_none (by omega))] at hk
      exact hp k a hk
  · rw [swapHeap_left_none (List.getElem?_eq_none (by omega))] at hk
    exact hp k a hk

theorem expiredAt_setIndexField (it : memoryItem Val) (k : Int) :
    (setIndexField it k).expiredAt = it.expiredAt := rfl

theorem key_setIndexField (it : memoryItem Val) (k : Int) :
    (setIndexField it k).key = it.key := rfl

theorem id_setIndexField (it : memoryItem Val) (k : Int) :
    (setIndexField it k).id = it.id := rfl

theorem value_setIndexField (it : memoryItem Val) (k : Int) :
    (setIndexField it k).value = it.value := rfl

/-- A negative `Less` between two occupied positions bounds the second
from above by the first. -/
theorem le_of_lessAt_false {h : List (memoryItem Val)} {i j : Nat}
    {a b : memoryItem Val} (hl : ¬ lessAt h i j = true)
    (ha : h[i]? = some a) (hb : h[j]? = some b) : b.expiredAt ≤ a.expiredAt := by
  by_contra hab
  exact hl (lessAt_eq_true.mpr ⟨a, b, ha, hb, by omega⟩)

/-! The min-heap order invariant maintained by `container/heap`:
every occupied non-root position is not `Less` than its parent. -/

/-- The parent-edge at position `j` is correctly ordered (vacuous for
unoccupied positions). -/
def heapEdgeOK (h : List (memoryItem Val)) (j : Nat) : Prop :=
  ∀ a b, h[j]? = some a → h[parentIdx j]? = some b → b.expiredAt ≤ a.expiredAt

/-- The Go heap invariant: each non-root slot's item expires no earlier
than its parent's. -/
def IsMinHeap (h : List (memoryItem Val)) : Prop :=
  ∀ j, 0 < j → heapEdgeOK h j

theorem parentIdx_lt {j : Nat} (hj : 0 < j) : parentIdx j < j := by
  simp only [parentIdx]
  omega

/-- Invariant of the `up` loop: the heap is ordered except possibly on the
edge from the sifted position `j` to its parent, and the children of `j`
are already no earlier than `j`'s parent (so a swap keeps them ordered). -/
structure UpInv (h : List (memoryItem Val)) (j : Nat) : Prop where
  others : ∀ k, 0 < k → k ≠ j → heapEdgeOK h k
  kids : ∀ c a g, 0 < j → parentIdx c = j → h[c]? = some a →
    h[parentIdx j]? = some g → g.expiredAt ≤ a.expiredAt

/-- Correctness of `container/heap`'s `up`: from the loop invariant, the
sifted heap satisfies the full min-heap invariant. -/
theorem up_correct :
    ∀ (j : Nat) (h : List (memoryItem Val)), UpInv h j → IsMinHeap (up h j) := by
  intro j
  induction j using Nat.strong_induction_on with
  | _ j ih =>
    intro h hinv
    match j with
    | 0 =>
      rw [up_zero]
      intro k hk
      exact hinv.others k hk (by omega)
    | j + 1 =>
      rw [up_succ]
      split
      · rename_i hl
        set p := parentIdx (j + 1) with hp
        have hplt : p < j + 1 := parentIdx_lt (by omega)
        obtain ⟨x, y, hx, hy, hxy⟩ := lessAt_eq_true.mp hl
        -- x sits at position j+1 and is rising; y sits at the parent p.
        have hswap := swapHeap_of_eq hy hx
        have hgoal : UpInv (swapHeap h p (j + 1)) p := by
          have hat_p : (swapHeap h p (j + 1))[p]? = some (setIndexField x (p : Int)) :=
            getElem?_swapHeap_left (by omega) hy hx
          have hat_n : (swapHeap h p (j + 1))[j + 1]? = some (setIndexField y ((j + 1 : Nat) : Int)) :=
            getElem?_swapHeap_right hy hx
          have hat_other : ∀ k, k ≠ p → k ≠ j + 1 →
              (swapHeap h p (j + 1))[k]? = h[k]? := fun k hkp hkn =>
            getElem?_swapHeap_other hkp hkn
          constructor
          · intro k hk hkp a b hka hkb
            by_cases hkn : k = j + 1
            · -- the displaced parent: its new parent holds the risen item x
              subst hkn
              rw [hat_n] at hka
              rw [← hp] at hkb
              rw [hat_p] at hkb
              cases hka
              cases hkb
              simp only [expiredAt_setIndexField]
              omega
            · by_cases hpk : parentIdx k = p
              · -- a sibling of the risen item: it was ≥ old parent y > x
                rw [hat_other k hkp hkn] at hka
                rw [hpk, hat_p] at hkb
                cases hkb
                have hpar : h[parentIdx k]? = some y := by
                  rw [hpk]
                  exact hy
                have hold : y.expiredAt ≤ a.expiredAt :=
                  hinv.others k hk (by omega) a y hka hpar
                simp only [expiredAt_setIndexField]
                omega
              · by_cases hpkn : parentIdx k = j + 1
                · -- a child of the old position of x: it was ≥ x's old parent y
                  rw [hat_other k hkp hkn] at hka
                  rw [hpkn, hat_n] at hkb
                  cases hkb
                  have hold : y.expiredAt ≤ a.expiredAt :=
                    hinv.kids k a y (by omega) hpkn hka hy
                  simp only [expiredAt_setIndexField]
                  exact hold
                · -- an edge untouched by the swap
                  rw [hat_other k hkp hkn] at hka
                  rw [hat_other (parentIdx k) hpk hpkn] at hkb
                  exact hinv.others k hk hkn a b hka hkb
          · intro c a g hp0 hpc hca hg
            have hgp_ne_p : parentIdx p ≠ p := by
              have := parentIdx_lt hp0
              omega
            have hgp_ne_n : parentIdx p ≠ j + 1 := by
              have := parentIdx_lt hp0
              omega
            rw [hat_other (parentIdx p) hgp_ne_p hgp_ne_n] at hg
            have hedge_p : g.expiredAt ≤ y.expiredAt :=
              hinv.others p hp0 (by omega) y g hy hg
            by_cases hcn : c = j + 1
            · subst hcn
              rw [hat_n] at hca
              cases hca
              simp only [expiredAt_setIndexField]
              exact hedge_p
            · have hcp : c ≠ p := by
                have : parentIdx c < c := parentIdx_lt (by
                  rcases Nat.eq_zero_or_pos c with hc0 | hc0
                  · subst hc0
                    simp only [parentIdx] at hpc
                    omega
                  · exact hc0)
                omega
              rw [hat_other c hcp hcn] at hca
              have hedge_c : y.expiredAt ≤ a.expiredAt := by
                have hc0 : 0 < c := by
                  rcases Nat.eq_zero_or_pos c with hc0 | hc0
                  · subst hc0
                    simp only [parentIdx] at hpc
                    omega
                  · exact hc0
                have hpar : h[parentIdx c]? = some y := by
                  rw [hpc]
                  exact hy
                exact hinv.others c hc0 hcn a y hca hpar
              omega
        exact ih p hplt _ hgoal
      · rename_i hl
        intro k hk a b hka hkb
        by_cases hkn : k = j + 1
        · subst hkn
          exact le_of_lessAt_false hl hka hkb
        · exact hinv.others k hk hkn a b hka hkb

/-- The positions with parent `i` are `2i+1` and `2i+2` (excepting the
degenerate root, whose parent is itself). -/
theorem children_of {k i : Nat} (hk : 0 < k) (hpk : parentIdx k = i) :
    k = 2 * i + 1 ∨ k = 2 * i + 2 := by
  simp only [parentIdx] at hpk
  omega

/-- The child `down` selects: the last existing child, preferring the
right child exactly when it is strictly `Less` than the left. -/
def chosenChild (h : List (memoryItem Val)) (i n c : Nat) : Prop :=
  (2 * i + 2 < n ∧ lessAt h (2 * i + 2) (2 * i + 1) = true ∧ c = 2 * i + 2) ∨
  (2 * i + 1 < n ∧ ¬(2 * i + 2 < n ∧ lessAt h (2 * i + 2) (2 * i + 1) = true) ∧
    c = 2 * i + 1)

theorem chosenChild_facts {h : List (memoryItem Val)} {i n c : Nat}
    (hcc : chosenChild h i n c) : i < c ∧ c < n ∧ parentIdx c = i := by
  rcases hcc with ⟨_, _, rfl⟩ | ⟨_, _, rfl⟩ <;>
    exact ⟨by omega, by omega, by simp only [parentIdx]; omega⟩

/-- The chosen child expires no later than any sibling. -/
theorem chosenChild_min {h : List (memoryItem Val)} {i n c : Nat}
    (hn : n = h.length) (hcc : chosenChild h i n c) :
    ∀ s a b, 0 < s → parentIdx s = i → h[s]? = some a → h[c]? = some b →
      b.expiredAt ≤ a.expiredAt := by
  intro s a b hs hps hsa hcb
  rcases children_of hs hps with hs1 | hs2
  · rcases hcc with ⟨h2n, hless, rfl⟩ | ⟨h1n, _, rfl⟩
    · subst hs1
      obtain ⟨x, y, hx, hy, hxy⟩ := lessAt_eq_true.mp hless
      rw [hx] at hcb
      rw [hy] at hsa
      cases hcb
      cases hsa
      omega
    · subst hs1
      rw [hsa] at hcb
      cases hcb
      omega
  · rcases hcc with ⟨h2n, hless, rfl⟩ | ⟨h1n, hno, rfl⟩
    · subst hs2
      rw [hsa] at hcb
      cases hcb
      omega
    · subst hs2
      have h2n : 2 * i + 2 < n := hn ▸ lt_length_of_getElem? hsa
      have hnless : ¬ lessAt h (2 * i + 2) (2 * i + 1) = true := fun hl => hno ⟨h2n, hl⟩
      exact le_of_lessAt_false hnless hsa hcb

/-- When the loop of `down` breaks because the chosen child is not `Less`
than the hole, every child edge of the hole is correctly ordered. -/
theorem break_children_ok {h : List (memoryItem Val)} {i n c : Nat}
    (hn : n = h.length) (hcc : chosenChild h i n c)
    (hbreak : ¬ lessAt h c i = true) :
    ∀ k, parentIdx k = i → heapEdgeOK h k := by
  intro k hpk a b hka hkb
  rcases Nat.eq_zero_or_pos k with hk0 | hk0
  · subst hk0
    rw [hpk] at hkb
    simp only [parentIdx] at hpk
    have hi0 : i = 0 := by omega
    subst hi0
    rw [hka] at hkb
    cases hkb
    omega
  · rw [hpk] at hkb
    obtain ⟨hic, hcn, hpc⟩ := chosenChild_facts hcc
    have hcsome : ∃ x, h[c]? = some x := by
      have : c < h.length := hn ▸ hcn
      exact ⟨h[c], List.getElem?_eq_getElem this⟩
    obtain ⟨x, hx⟩ := hcsome
    have hbx : b.expiredAt ≤ x.expiredAt := le_of_lessAt_false hbreak hx hkb
    have hxa : x.expiredAt ≤ a.expiredAt :=
      chosenChild_min hn hcc k a x hk0 hpk hka hx
    omega

/-- Loop invariant of the sift-down phase: every parent edge is ordered
except possibly those into the hole's children, and the hole's children
are already no earlier than the hole's parent. -/
structure DownInvS (h : List (memoryItem Val)) (i : Nat) : Prop where
  others : ∀ k, 0 < k → parentIdx k ≠ i → heapEdgeOK h k
  above : ∀ c a g, parentIdx c = i → 0 < i → h[c]? = some a →
    h[parentIdx i]? = some g → g.expiredAt ≤ a.expiredAt

/-- Invariant at entry of Go's `Remove` repair (the hole may be wrong in
both directions): all edges not touching the hole are ordered, and the
hole's children are no earlier than its parent. -/
structure RemInv (h : List (memoryItem Val)) (i : Nat) : Prop where
  others : ∀ k, 0 < k → k ≠ i → parentIdx k ≠ i → heapEdgeOK h k
  above : ∀ c a g, parentIdx c = i → 0 < i → h[c]? = some a →
    h[parentIdx i]? = some g → g.expiredAt ≤ a.expiredAt

/-- One sift-down swap restores the strong invariant at the chosen
child. -/
theorem swap_establishes {h : List (memoryItem Val)} {i n c : Nat}
    (hn : n = h.length) (hcc : chosenChild h i n c)
    (hless : lessAt h c i = true)
    (hothers : ∀ k, 0 < k → k ≠ i → parentIdx k ≠ i → heapEdgeOK h k)
    (habove : ∀ c' a g, parentIdx c' = i → 0 < i → h[c']? = some a →
      h[parentIdx i]? = some g → g.expiredAt ≤ a.expiredAt) :
    DownInvS (swapHeap h i c) c := by
  obtain ⟨hic, hcn, hpc⟩ := chosenChild_facts hcc
  obtain ⟨bc, bi, hC, hI, hlt⟩ := lessAt_eq_true.mp hless
  have hne : i ≠ c := by omega
  have hat_i : (swapHeap h i c)[i]? = some (setIndexField bc (i : Int)) :=
    getElem?_swapHeap_left hne hI hC
  have hat_c : (swapHeap h i c)[c]? = some (setIndexField bi (c : Int)) :=
    getElem?_swapHeap_right hI hC
  have hat_other : ∀ k, k ≠ i → k ≠ c → (swapHeap h i c)[k]? = h[k]? :=
    fun k hki hkc => getElem?_swapHeap_other hki hkc
  constructor
  · intro k hk hpkc a b hka hkb
    by_cases hkc : k = c
    · subst hkc
      rw [hat_c] at hka
      rw [hpc, hat_i] at hkb
      cases hka
      cases hkb
      simp only [expiredAt_setIndexField]
      omega
    · by_cases hki : k = i
      · subst hki
        have hi0 : 0 < k := hk
        have hpi_ne_k : parentIdx k ≠ k := by
          have := parentIdx_lt hk
          omega
        have hpi_ne_c : parentIdx k ≠ c := by
          have := parentIdx_lt hk
          omega
        rw [hat_i] at hka
        cases hka
        rw [hat_other (parentIdx k) hpi_ne_k hpi_ne_c] at hkb
        have := habove c bc b hpc hi0 hC hkb
        simp only [expiredAt_setIndexField]
        exact this
      · by_cases hpki : parentIdx k = i
        · -- sibling of the chosen child
          rw [hat_other k hki hkc] at hka
          rw [hpki, hat_i] at hkb
          cases hkb
          have := chosenChild_min hn hcc k a bc hk hpki hka hC
          simp only [expiredAt_setIndexField]
          exact this
        · rw [hat_other k hki hkc] at hka
          rw [hat_other (parentIdx k) hpki hpkc] at hkb
          exact hothers k hk hki hpki a b hka hkb
  · intro c' a g hpc' hc0 hca hg
    have hc'c : c' ≠ c := by
      have : parentIdx c' < c' := parentIdx_lt (by
        rcases Nat.eq_zero_or_pos c' with h0 | h0
        · subst h0
          simp only [parentIdx] at hpc'
          omega
        · exact h0)
      omega
    have hc'i : c' ≠ i := by
      have : parentIdx c' < c' := parentIdx_lt (by
        rcases Nat.eq_zero_or_pos c' with h0 | h0
        · subst h0
          simp only [parentIdx] at hpc'
          omega
        · exact h0)
      omega
    rw [hat_other c' hc'i hc'c] at hca
    rw [hpc, hat_i] at hg
    cases hg
    have hc'pos : 0 < c' := by
      rcases Nat.eq_zero_or_pos c' with h0 | h0
      · subst h0
        simp only [parentIdx] at hpc'
        omega
      · exact h0
    have := hothers c' hc'pos hc'i (by omega) a bc hca (by rw [hpc']; exact hC)
    simp only [expiredAt_setIndexField]
    exact this

/-- Correctness of the sift-down loop under the strong invariant. -/
theorem down_strong :
    ∀ (gas : Nat) (h : List (memoryItem Val)) (i : Nat), h.length - i ≤ gas →
      DownInvS h i → IsMinHeap (down h i h.length).1 := by
  intro gas
  induction gas with
  | zero =>
    intro h i hgas hinv
    rw [down_eq, if_neg (by omega)]
    intro k hk a b hka hkb
    have hklen : k < h.length := lt_length_of_getElem? hka
    exact hinv.others k hk (by
      have := parentIdx_lt hk
      omega) a b hka hkb
  | succ gas ih =>
    intro h i hgas hinv
    rw [down_eq]
    by_cases hl1 : 2 * i + 1 < h.length
    · rw [if_pos hl1]
      by_cases hl2 : 2 * i + 2 < h.length ∧ lessAt h (2 * i + 2) (2 * i + 1) = true
      · rw [if_pos hl2]
        have hcc : chosenChild h i h.length (2 * i + 2) := Or.inl ⟨hl2.1, hl2.2, rfl⟩
        by_cases hl3 : lessAt h (2 * i + 2) i = true
        · rw [if_pos hl3]
          have hinv2 : DownInvS (swapHeap h i (2 * i + 2)) (2 * i + 2) :=
            swap_establishes rfl hcc hl3 (fun k hk _ hpk => hinv.others k hk hpk)
              hinv.above
          have hlen2 : (swapHeap h i (2 * i + 2)).length = h.length := length_swapHeap h i (2 * i + 2)
          have := ih (swapHeap h i (2 * i + 2)) (2 * i + 2) (by rw [hlen2]; omega) hinv2
          rw [hlen2] at this
          exact this
        · rw [if_neg hl3]
          intro k hk a b hka hkb
          by_cases hpk : parentIdx k = i
          · exact break_children_ok rfl hcc hl3 k hpk a b hka hkb
          · exact hinv.others k hk hpk a b hka hkb
      · rw [if_neg hl2]
        have hcc : chosenChild h i h.length (2 * i + 1) := Or.inr ⟨hl1, hl2, rfl⟩
        by_cases hl3 : lessAt h (2 * i + 1) i = true
        · rw [if_pos hl3]
          have hinv2 : DownInvS (swapHeap h i (2 * i + 1)) (2 * i + 1) :=
            swap_establishes rfl hcc hl3 (fun k hk _ hpk => hinv.others k hk hpk)
              hinv.above
          have hlen2 : (swapHeap h i (2 * i + 1)).length = h.length := length_swapHeap h i (2 * i + 1)
          have := ih (swapHeap h i (2 * i + 1)) (2 * i + 1) (by rw [hlen2]; omega) hinv2
          rw [hlen2] at this
          exact this
        · rw [if_neg hl3]
          intro k hk a b hka hkb
          by_cases hpk : parentIdx k = i
          · exact break_children_ok rfl hcc hl3 k hpk a b hka hkb
          · exact hinv.others k hk hpk a b hka hkb
    · rw [if_neg hl1]
      intro k hk a b hka hkb
      have hklen : k < h.length := lt_length_of_getElem? hka
      by_cases hpk : parentIdx k = i
      · exfalso
        rcases children_of hk hpk with h1 | h2 <;> omega
      · exact hinv.others k hk hpk a b hka hkb

/-- Correctness of Go's `Remove` repair step `if !down(i) { up(i) }` under
the weak invariant at the hole. -/
theorem remove_sift_correct (h : List (memoryItem Val)) (i : Nat)
    (hinv : RemInv h i) :
    IsMinHeap (if (down h i h.length).2 then (down h i h.length).1
      else up (down h i h.length).1 i) := by
  rw [down_eq]
  by_cases hl1 : 2 * i + 1 < h.length
  · rw [if_pos hl1]
    by_cases hl2 : 2 * i + 2 < h.length ∧ lessAt h (2 * i + 2) (2 * i + 1) = true
    · rw [if_pos hl2]
      have hcc : chosenChild h i h.length (2 * i + 2) := Or.inl ⟨hl2.1, hl2.2, rfl⟩
      by_cases hl3 : lessAt h (2 * i + 2) i = true
      · rw [if_pos hl3]
        have hinv2 : DownInvS (swapHeap h i (2 * i + 2)) (2 * i + 2) :=
          swap_establishes rfl hcc hl3 hinv.others hinv.above
        have hlen2 : (swapHeap h i (2 * i + 2)).length = h.length :=
          length_swapHeap h i (2 * i + 2)
        have hmin := down_strong (swapHeap h i (2 * i + 2)).length
          (swapHeap h i (2 * i + 2)) (2 * i + 2) (by omega) hinv2
        rw [hlen2] at hmin
        simpa using hmin
      · rw [if_neg hl3]
        simp only [Bool.false_eq_true, if_false]
        apply up_correct
        constructor
        · intro k hk hki a b hka hkb
          by_cases hpk : parentIdx k = i
          · exact break_children_ok rfl hcc hl3 k hpk a b hka hkb
          · exact hinv.others k hk hki hpk a b hka hkb
        · exact fun c a g hi0 hpc => hinv.above c a g hpc hi0
    · rw [if_neg hl2]
      have hcc : chosenChild h i h.length (2 * i + 1) := Or.inr ⟨hl1, hl2, rfl⟩
      by_cases hl3 : lessAt h (2 * i + 1) i = true
      · rw [if_pos hl3]
        have hinv2 : DownInvS (swapHeap h i (2 * i + 1)) (2 * i + 1) :=
          swap_establishes rfl hcc hl3 hinv.others hinv.above
        have hlen2 : (swapHeap h i (2 * i + 1)).length = h.length :=
          length_swapHeap h i (2 * i + 1)
        have hmin := down_strong (swapHeap h i (2 * i + 1)).length
          (swapHeap h i (2 * i + 1)) (2 * i + 1) (by omega) hinv2
        rw [hlen2] at hmin
        simpa using hmin
      · rw [if_neg hl3]
        simp only [Bool.false_eq_true, if_false]
        apply up_correct
        constructor
        · intro k hk hki a b hka hkb
          by_cases hpk : parentIdx k = i
          · exact break_children_ok rfl hcc hl3 k hpk a b hka hkb
          · exact hinv.others k hk hki hpk a b hka hkb
        · exact fun c a g hi0 hpc => hinv.above c a g hpc hi0
  · rw [if_neg hl1]
    simp only [Bool.false_eq_true, if_false]
    apply up_correct
    constructor
    · intro k hk hki a b hka hkb
      by_cases hpk : parentIdx k = i
      · exfalso
        have := lt_length_of_getElem? hka
        rcases children_of hk hpk with h1 | h2 <;> omega
      · exact hinv.others k hk hki hpk a b hka hkb
    · intro c a g hi0 hpc hca hg
      exfalso
      have := lt_length_of_getElem? hca
      have hc0 : 0 < c := by
        rcases Nat.eq_zero_or_pos c with h0 | h0
        · subst h0
          simp only [parentIdx] at hpc
          omega
        · exact h0
      rcases children_of hc0 hpc with h1 | h2 <;> omega

theorem setIndexField_setIndexField (it : memoryItem Val) (a b : Int) :
    setIndexField (setIndexField it a) b = setIndexField it b := rfl

theorem lessAt_append {l : List (memoryItem Val)} {x : memoryItem Val} {i j : Nat}
    (hi : i < l.length) (hj : j < l.length) :
    lessAt (l ++ [x]) i j = lessAt l i j := by
  simp only [lessAt, List.getElem?_append_left hi, List.getElem?_append_left hj]

theorem swapHeap_append {l : List (memoryItem Val)} {x : memoryItem Val} {i j : Nat}
    (hi : i < l.length) (hj : j < l.length) :
    swapHeap (l ++ [x]) i j = swapHeap l i j ++ [x] := by
  have ha : (l ++ [x])[i]? = some l[i] := by
    rw [List.getElem?_append_left hi]
    exact List.getElem?_eq_getElem hi
  have hb : (l ++ [x])[j]? = some l[j] := by
    rw [List.getElem?_append_left hj]
    exact List.getElem?_eq_getElem hj
  rw [swapHeap_of_eq ha hb,
    swapHeap_of_eq (List.getElem?_eq_getElem hi) (List.getElem?_eq_getElem hj)]
  rw [List.set_append_left _ _ hi,
    List.set_append_left _ _ (by rw [List.length_set]; exact hj)]

theorem upAux_append :
    ∀ (f : Nat) (l : List (memoryItem Val)) (x : memoryItem Val) (j : Nat),
      j < l.length → upAux f (l ++ [x]) j = upAux f l j ++ [x] := by
  intro f
  induction f with
  | zero => intro l x j _; cases j <;> rfl
  | succ f ih =>
    intro l x j hj
    cases j with
    | zero => rfl
    | succ j =>
      have hpar : parentIdx (j + 1) < l.length := by
        simp only [parentIdx]
        omega
      simp only [upAux, lessAt_append hj hpar]
      split
      · rw [swapHeap_append hpar hj]
        exact ih _ x _ (by rw [length_swapHeap]; exact hpar)
      · rfl

theorem downAux_append :
    ∀ (f : Nat) (l : List (memoryItem Val)) (x : memoryItem Val) (i : Nat),
      downAux f (l ++ [x]) i l.length =
        ((downAux f l i l.length).1 ++ [x], (downAux f l i l.length).2) := by
  intro f
  induction f with
  | zero => intro l x i; rfl
  | succ f ih =>
    intro l x i
    simp only [downAux]
    by_cases h1 : 2 * i + 1 < l.length
    · have hi_lt : i < l.length := by omega
      simp only [if_pos h1]
      by_cases h2 : 2 * i + 2 < l.length
      · rw [lessAt_append h2 h1]
        by_cases h3 : lessAt l (2 * i + 2) (2 * i + 1) = true
        · simp only [if_pos (And.intro h2 h3)]
          rw [lessAt_append h2 hi_lt]
          by_cases h4 : lessAt l (2 * i + 2) i = true
          · simp only [if_pos h4]
            rw [swapHeap_append hi_lt h2]
            have hlen : (swapHeap l i (2 * i + 2)).length = l.length :=
              length_swapHeap l i (2 * i + 2)
            have heq := ih (swapHeap l i (2 * i + 2)) x (2 * i + 2)
            rw [hlen] at heq
            rw [heq]
          · simp only [if_neg h4]
        · have hno : ¬ (2 * i + 2 < l.length ∧ lessAt l (2 * i + 2) (2 * i + 1) = true) :=
            fun hc => h3 hc.2
          simp only [if_neg hno]
          rw [lessAt_append h1 hi_lt]
          by_cases h4 : lessAt l (2 * i + 1) i = true
          · simp only [if_pos h4]
            rw [swapHeap_append hi_lt h1]
            have hlen : (swapHeap l i (2 * i + 1)).length = l.length :=
              length_swapHeap l i (2 * i + 1)
            have heq := ih (swapHeap l i (2 * i + 1)) x (2 * i + 1)
            rw [hlen] at heq
            rw [heq]
          · simp only [if_neg h4]
      · have hno : ¬ (2 * i + 2 < l.length ∧ lessAt l (2 * i + 2) (2 * i + 1) = true) :=
          fun hc => h2 hc.1
        have hno' : ¬ (2 * i + 2 < l.length ∧
            lessAt (l ++ [x]) (2 * i + 2) (2 * i + 1) = true) := fun hc => h2 hc.1
        simp only [if_neg hno, if_neg hno']
        rw [lessAt_append h1 hi_lt]
        by_cases h4 : lessAt l (2 * i + 1) i = true
        · simp only [if_pos h4]
          rw [swapHeap_append hi_lt h1]
          have hlen : (swapHeap l i (2 * i + 1)).length = l.length :=
            length_swapHeap l i (2 * i + 1)
          have heq := ih (swapHeap l i (2 * i + 1)) x (2 * i + 1)
          rw [hlen] at heq
          rw [heq]
        · simp only [if_neg h4]
    · simp only [if_neg h1]

theorem posOK_upAux :
    ∀ (f : Nat) (h : List (memoryItem Val)) (j : Nat), posOK h → posOK (upAux f h j) := by
  intro f
  induction f with
  | zero => intro h j hp; cases j <;> exact hp
  | succ f ih =>
    intro h j hp
    cases j with
    | zero => exact hp
    | succ j =>
      simp only [upAux]
      split
      · exact ih _ _ (posOK_swapHeap hp)
      · exact hp

theorem posOK_up (h : List (memoryItem Val)) (j : Nat) (hp : posOK h) :
    posOK (up h j) :=
  posOK_upAux j h j hp

theorem posOK_downAux :
    ∀ (f : Nat) (h : List (memoryItem Val)) (i n : Nat), posOK h →
      posOK (downAux f h i n).1 := by
  intro f
  induction f with
  | zero => intro h i n hp; exact hp
  | succ f ih =>
    intro h i n hp
    simp only [downAux]
    split
    · split
      · split
        · exact ih _ _ _ (posOK_swapHeap hp)
        · exact hp
      · split
        · exact ih _ _ _ (posOK_swapHeap hp)
        · exact hp
    · exact hp

theorem posOK_down (h : List (memoryItem Val)) (i n : Nat) (hp : posOK h) :
    posOK (down h i n).1 :=
  posOK_downAux n h i n hp

theorem posOK_append {h : List (memoryItem Val)} (hp : posOK h) (it : memoryItem Val) :
    posOK (h ++ [setIndexField it (h.length : Int)]) := by
  intro k a hk
  rcases Nat.lt_trichotomy k h.length with hlt | heq | hgt
  · rw [List.getElem?_append_left hlt] at hk
    exact hp k a hk
  · subst heq
    rw [List.getElem?_concat_length] at hk
    cases hk
    rfl
  · have hge : (h ++ [setIndexField it (h.length : Int)]).length ≤ k := by
      simp only [List.length_append, List.length_cons, List.length_nil]
      omega
    rw [List.getElem?_eq_none hge] at hk
    cases hk

theorem posOK_dropLast {h : List (memoryItem Val)} (hp : posOK h) :
    posOK h.dropLast := by
  intro k a hk
  rw [List.getElem?_dropLast] at hk
  split at hk
  · exact hp k a hk
  · cases hk

theorem isMinHeap_dropLast {h : List (memoryItem Val)} (hm : IsMinHeap h) :
    IsMinHeap h.dropLast := by
  intro k hk a b hka hkb
  rw [List.getElem?_dropLast] at hka hkb
  split at hka
  · split at hkb
    · exact hm k hk a b hka hkb
    · cases hkb
  · cases hka

/-- In a min-heap the root expires no later than any entry. -/
theorem isMinHeap_root_le {h : List (memoryItem Val)} (hm : IsMinHeap h) :
    ∀ (k : Nat) (r a : memoryItem Val), h[0]? = some r → h[k]? = some a →
      r.expiredAt ≤ a.expiredAt := by
  intro k
  induction k using Nat.strong_induction_on with
  | _ k ih =>
    intro r a h0 hk
    rcases Nat.eq_zero_or_pos k with hk0 | hk0
    · subst hk0
      rw [h0] at hk
      cases hk
      omega
    · have hpar_lt : parentIdx k < k := parentIdx_lt hk0
      have hpar_len : parentIdx k < h.length := by
        have := lt_length_of_getElem? hk
        omega
      have hb : h[parentIdx k]? = some h[parentIdx k] := List.getElem?_eq_getElem hpar_len
      have h1 : r.expiredAt ≤ h[parentIdx k].expiredAt := ih (parentIdx k) hpar_lt r _ h0 hb
      have h2 : h[parentIdx k].expiredAt ≤ a.expiredAt := hm k hk0 a _ hk hb
      omega

/-- Appending a fresh slot leaves a heap needing only one upward
repair. -/
theorem push_upInv {h : List (memoryItem Val)} (hm : IsMinHeap h) (x : memoryItem Val) :
    UpInv (h ++ [x]) h.length := by
  constructor
  · intro k hk hkn a b hka hkb
    have hklen : k < h.length + 1 := by
      have := lt_length_of_getElem? hka
      simpa using this
    have hklt : k < h.length := by omega
    rw [List.getElem?_append_left hklt] at hka
    rw [List.getElem?_append_left (by
      have := parentIdx_lt hk
      omega)] at hkb
    exact hm k hk a b hka hkb
  · intro c a g h0 hpc hca hg
    exfalso
    have hc0 : 0 < c := by
      rcases Nat.eq_zero_or_pos c with hc | hc
      · subst hc
        simp only [parentIdx] at hpc
        omega
      · exact hc
    have hclen : c < h.length + 1 := by
      have := lt_length_of_getElem? hca
      simpa using this
    rcases children_of hc0 hpc with h1 | h2 <;> omega

/-- `down` reports `false` only when it moved nothing. -/
theorem down_false_eq {h : List (memoryItem Val)} {i n : Nat}
    (hb : (down h i n).2 = false) : (down h i n).1 = h := by
  rw [down_eq] at hb ⊢
  split_ifs at hb ⊢ <;> simp_all

theorem popStore_eq (s : memoryStore Val) (hne : s.heap ≠ []) :
    popStore s =
      ({ s with
          heap := s.heap.dropLast
          index := mapDel s.index (s.heap.getLast hne).key },
        some (setIndexField (s.heap.getLast hne) (-1))) := by
  simp only [popStore, List.getLast?_eq_getLast s.heap hne]

/-- Entering Go's `Remove` repair: overwriting slot `i` of a min-heap
with the (removed) last element leaves a state satisfying the weak repair
invariant at `i`. -/
theorem remInv_of_removal {l : List (memoryItem Val)} {z : memoryItem Val} {i : Nat}
    (hi : i < l.length) (hmin : IsMinHeap (l ++ [z])) :
    RemInv (l.set i (setIndexField z (i : Int))) i := by
  constructor
  · intro k hk hki hpki a b hka hkb
    have hklen : k < l.length := by
      have := lt_length_of_getElem? hka
      rwa [List.length_set] at this
    rw [List.getElem?_set_ne (Ne.symm hki)] at hka
    rw [List.getElem?_set_ne (Ne.symm hpki)] at hkb
    rw [← @List.getElem?_append_left _ l [z] _ hklen] at hka
    rw [← @List.getElem?_append_left _ l [z] _ (show parentIdx k < l.length by
      have := parentIdx_lt hk
      omega)] at hkb
    exact hmin k hk a b hka hkb
  · intro c a g hpc hi0 hca hg
    have hc0 : 0 < c := by
      rcases Nat.eq_zero_or_pos c with h0 | h0
      · subst h0
        simp only [parentIdx] at hpc
        omega
      · exact h0
    have hci : c ≠ i := by
      have := parentIdx_lt hc0
      omega
    have hpii : parentIdx i ≠ i := by
      have := parentIdx_lt hi0
      omega
    have hclen : c < l.length := by
      have := lt_length_of_getElem? hca
      rwa [List.length_set] at this
    rw [List.getElem?_set_ne (Ne.symm hci)] at hca
    rw [List.getElem?_set_ne (Ne.symm hpii)] at hg
    rw [← @List.getElem?_append_left _ l [z] _ hclen] at hca
    rw [← @List.getElem?_append_left _ l [z] _ (show parentIdx i < l.length by
      have := parentIdx_lt hi0
      omega)] at hg
    have hbi : (l ++ [z])[i]? = some l[i] := by
      rw [List.getElem?_append_left hi]
      exact List.getElem?_eq_getElem hi
    have edge1 : l[i].expiredAt ≤ a.expiredAt := by
      have := hmin c hc0 a (l[i]) hca (by rw [hpc]; exact hbi)
      exact this
    have edge2 : g.expiredAt ≤ l[i].expiredAt := hmin i hi0 (l[i]) g hbi hg
    omega

theorem posOK_popStore {s : memoryStore Val} (hp : posOK s.heap) :
    posOK (popStore s).1.heap := by
  cases hgl : s.heap.getLast? with
  | none => simpa [popStore, hgl] using hp
  | some z =>
    simp only [popStore, hgl]
    exact posOK_dropLast hp

theorem posOK_heapRemove (s : memoryStore Val) (i : Nat) (hp : posOK s.heap) :
    posOK (heapRemove s i).1.heap := by
  simp only [heapRemove]
  split
  · exact posOK_popStore hp
  · apply posOK_popStore (s := { s with heap := _ })
    split
    · exact posOK_down _ _ _ (posOK_swapHeap hp)
    · exact posOK_up _ _ (posOK_down _ _ _ (posOK_swapHeap hp))

/-- Full characterisation of `heap.Remove` on a valid min-heap: it
removes exactly the item at the requested slot (returned with `index`
`-1`), deregisters that item's key, keeps the heap a min-heap, and only
deletes that one slot (the cores of the rest are preserved). -/
theorem heapRemove_spec (s : memoryStore Val) (i : Nat) (hi : i < s.heap.length)
    (hmin : IsMinHeap s.heap) :
    ∃ rem : memoryItem Val,
      s.heap[i]? = some rem ∧
      (heapRemove s i).2 = some (setIndexField rem (-1)) ∧
      (heapRemove s i).1.index = mapDel s.index rem.key ∧
      (heapRemove s i).1.nextId = s.nextId ∧
      (heapRemove s i).1.heap.length = s.heap.length - 1 ∧
      IsMinHeap (heapRemove s i).1.heap ∧
      (core rem :: (heapRemove s i).1.heap.map core).Perm (s.heap.map core) := by
  have hne : s.heap ≠ [] := by
    intro h0
    rw [h0] at hi
    simp at hi
  by_cases hbr : i = s.heap.length - 1
  · have hrm : heapRemove s i = popStore s := by
      simp only [heapRemove, if_pos hbr]
    have hgl : s.heap[i]? = some (s.heap.getLast hne) := by
      rw [List.getLast_eq_getElem]
      rw [hbr]
      exact List.getElem?_eq_getElem (by omega)
    have hperm : (core (s.heap.getLast hne) :: s.heap.dropLast.map core).Perm
        (s.heap.map core) := by
      conv_rhs => rw [← List.dropLast_concat_getLast hne]
      rw [List.map_append]
      have := @List.perm_middle (itemCore Val) (core (s.heap.getLast hne))
        (s.heap.dropLast.map core) []
      simp only [List.append_nil] at this
      exact this.symm
    refine ⟨s.heap.getLast hne, hgl, ?_, ?_, ?_, ?_, ?_, ?_⟩
    · rw [hrm, popStore_eq s hne]
    · rw [hrm, popStore_eq s hne]
    · rw [hrm, popStore_eq s hne]
    · rw [hrm, popStore_eq s hne]
      simp
    · rw [hrm, popStore_eq s hne]
      exact isMinHeap_dropLast hmin
    · rw [hrm, popStore_eq s hne]
      exact hperm
  · have hil : i < s.heap.length - 1 := by omega
    have hsplit : s.heap.dropLast ++ [s.heap.getLast hne] = s.heap :=
      List.dropLast_concat_getLast hne
    set l := s.heap.dropLast with hldef
    set z := s.heap.getLast hne with hzdef
    have hlen_l : l.length = s.heap.length - 1 := by
      rw [hldef]
      simp
    have hil' : i < l.length := by omega
    have hmin' : IsMinHeap (l ++ [z]) := by
      rw [hsplit]
      exact hmin
    have ha : (l ++ [z])[i]? = some l[i] := by
      rw [List.getElem?_append_left hil']
      exact List.getElem?_eq_getElem hil'
    have hb : (l ++ [z])[l.length]? = some z := List.getElem?_concat_length l z
    set l' := l.set i (setIndexField z (i : Int)) with hldef2
    set x' := setIndexField l[i] ((l.length : Nat) : Int) with hxdef2
    have hlen_l' : l'.length = l.length := by
      rw [hldef2, List.length_set]
    have h1_eq : swapHeap s.heap i (s.heap.length - 1) = l' ++ [x'] := by
      conv_lhs => rw [← hsplit]
      have hlen2 : (l ++ [z]).length - 1 = l.length := by simp
      rw [hlen2]
      rw [swapHeap_of_eq ha hb]
      rw [List.set_append_left _ _ hil']
      rw [List.set_append_right _ _ (by rw [List.length_set])]
      rw [List.length_set, Nat.sub_self, List.set_cons_zero]
    have hdown_eq : down (l' ++ [x']) i (s.heap.length - 1) =
        ((down l' i l'.length).1 ++ [x'], (down l' i l'.length).2) := by
      have hn : s.heap.length - 1 = l'.length := by omega
      rw [hn]
      exact downAux_append l'.length l' x' i
    have hrm : heapRemove s i = popStore { s with heap :=
        (if (down l' i l'.length).2 then (down l' i l'.length).1 ++ [x']
         else up ((down l' i l'.length).1 ++ [x']) i) } := by
      simp only [heapRemove, if_neg hbr]
      rw [h1_eq, hdown_eq]
    have hinvR : RemInv l' i := remInv_of_removal hil' hmin'
    have hsift := remove_sift_correct l' i hinvR
    have hkeyx : x'.key = l[i].key := rfl
    have hremx : setIndexField x' (-1) = setIndexField l[i] (-1) := rfl
    have hcores_l' : l'.map core = (l.map core).set i (core z) := by
      rw [hldef2, List.map_set]
      rfl
    have hmapi : (l.map core)[i]? = some (core l[i]) := by
      rw [List.getElem?_map, List.getElem?_eq_getElem hil']
      rfl
    have htail : (core z :: l.map core).Perm (l.map core ++ [core z]) := by
      have := @List.perm_middle (itemCore Val) (core z) (l.map core) []
      simp only [List.append_nil] at this
      exact this.symm
    have hback : l.map core ++ [core z] = s.heap.map core := by
      conv_rhs => rw [← hsplit]
      rw [List.map_append]
      rfl
    have hfinishPerm : ∀ R : List (memoryItem Val), (R.map core).Perm (l'.map core) →
        (core l[i] :: R.map core).Perm (s.heap.map core) := by
      intro R hp1
      have hp1' : (R.map core).Perm ((l.map core).set i (core z)) := by
        rw [← hcores_l']
        exact hp1
      have step1 : (core l[i] :: R.map core).Perm
          (core l[i] :: (l.map core).set i (core z)) := hp1'.cons _
      have step2 : (core l[i] :: (l.map core).set i (core z)).Perm
          (core z :: l.map core) := cons_set_perm _ _ _ i hmapi
      rw [← hback]
      exact (step1.trans step2).trans htail
    by_cases hmv : (down l' i l'.length).2 = true
    · have hR_heap : heapRemove s i =
          ({ s with
              heap := (down l' i l'.length).1
              index := mapDel s.index x'.key },
            some (setIndexField x' (-1))) := by
        rw [hrm, if_pos hmv]
        simp only [popStore, List.getLast?_concat, List.dropLast_concat]
      refine ⟨l[i], ?_, ?_, ?_, ?_, ?_, ?_, ?_⟩
      · rw [← hsplit]
        exact ha
      · rw [hR_heap, hremx]
      · rw [hR_heap, hkeyx]
      · rw [hR_heap]
      · rw [hR_heap]
        have : ((down l' i l'.length).1).length = l'.length := length_down l' i l'.length
        simp only [this]
        omega
      · rw [hR_heap]
        rw [if_pos hmv] at hsift
        exact hsift
      · rw [hR_heap]
        exact hfinishPerm _ (map_core_down l' i l'.length)
    · have hmv' : (down l' i l'.length).2 = false := by
        cases hcase : (down l' i l'.length).2
        · rfl
        · exact absurd hcase hmv
      have hdl : (down l' i l'.length).1 = l' := down_false_eq hmv'
      have hup : up (l' ++ [x']) i = up l' i ++ [x'] := by
        show upAux i (l' ++ [x']) i = upAux i l' i ++ [x']
        exact upAux_append i l' x' i (by omega)
      have hR_heap : heapRemove s i =
          ({ s with
              heap := up l' i
              index := mapDel s.index x'.key },
            some (setIndexField x' (-1))) := by
        rw [hrm, if_neg hmv, hdl, hup]
        simp only [popStore, List.getLast?_concat, List.dropLast_concat]
      refine ⟨l[i], ?_, ?_, ?_, ?_, ?_, ?_, ?_⟩
      · rw [← hsplit]
        exact ha
      · rw [hR_heap, hremx]
      · rw [hR_heap, hkeyx]
      · rw [hR_heap]
      · rw [hR_heap]
        have : (up l' i).length = l'.length := length_up l' i
        simp only [this]
        omega
      · rw [hR_heap]
        rw [if_neg hmv, hdl] at hsift
        exact hsift
      · rw [hR_heap]
        exact hfinishPerm _ (map_core_up l' i)

/-! Association-list lemmas for the Go map model. -/

theorem mapDel_sublist (m : List (String × Nat)) (k : String) :
    (mapDel m k).Sublist m := by
  induction m with
  | nil => simp [mapDel]
  | cons p rest ih =>
    simp only [mapDel]
    split
    · exact ih.cons p
    · exact ih.cons₂ p

theorem mem_mapDel_iff {m : List (String × Nat)} {k : String} {p : String × Nat} :
    p ∈ mapDel m k ↔ p ∈ m ∧ p.1 ≠ k := by
  induction m with
  | nil => simp [mapDel]
  | cons q rest ih =>
    simp only [mapDel]
    split
    · rename_i hq
      rw [ih]
      constructor
      · rintro ⟨hp, hne⟩
        exact ⟨List.mem_cons_of_mem q hp, hne⟩
      · rintro ⟨hp, hne⟩
        rcases List.mem_cons.mp hp with rfl | hp
        · exact absurd hq hne
        · exact ⟨hp, hne⟩
    · rename_i hq
      simp only [List.mem_cons, ih]
      constructor
      · rintro (rfl | ⟨hp, hne⟩)
        · exact ⟨Or.inl rfl, hq⟩
        · exact ⟨Or.inr hp, hne⟩
      · rintro ⟨rfl | hp, hne⟩
        · exact Or.inl rfl
        · exact Or.inr ⟨hp, hne⟩

theorem mapLookup_mem {m : List (String × Nat)} {k : String} {id : Nat}
    (hl : mapLookup m k = some id) : (k, id) ∈ m := by
  induction m with
  | nil => simp [mapLookup] at hl
  | cons p rest ih =>
    simp only [mapLookup] at hl
    split at hl
    · rename_i hk
      cases hl
      have hp : (k, p.2) = p := by
        rw [← hk]
      rw [hp]
      exact List.mem_cons_self p rest
    · exact List.mem_cons_of_mem p (ih hl)

theorem mapLookup_mapSet_self (m : List (String × Nat)) (k : String) (id : Nat) :
    mapLookup (mapSet m k id) k = some id := by
  simp [mapSet, mapLookup]

theorem mapLookup_mapDel_self (m : List (String × Nat)) (k : String) :
    mapLookup (mapDel m k) k = none := by
  induction m with
  | nil => rfl
  | cons p rest ih =>
    simp only [mapDel]
    split
    · exact ih
    · rename_i hp
      simp only [mapLookup, if_neg hp]
      exact ih

theorem mapLookup_mapDel_other (m : List (String × Nat)) {k k' : String}
    (hne : k' ≠ k) : mapLookup (mapDel m k) k' = mapLookup m k' := by
  induction m with
  | nil => rfl
  | cons p rest ih =>
    simp only [mapDel]
    split
    · rename_i hp
      rw [ih]
      have hpk' : ¬ p.1 = k' := by
        intro h
        exact hne (by rw [← h, hp])
      simp only [mapLookup, if_neg hpk']
    · simp only [mapLookup]
      split
      · rfl
      · exact ih

theorem mapLookup_mapSet_other (m : List (String × Nat)) {k k' : String} (id : Nat)
    (hne : k' ≠ k) : mapLookup (mapSet m k id) k' = mapLookup m k' := by
  have h1 : ¬ (k, id).1 = k' := fun h => hne h.symm
  simp only [mapSet, mapLookup, if_neg h1]
  exact mapLookup_mapDel_other m hne

theorem mapDel_keysNodup {m : List (String × Nat)} (k : String)
    (hn : (m.map (fun p => p.1)).Nodup) :
    ((mapDel m k).map (fun p => p.1)).Nodup :=
  ((mapDel_sublist m k).map _).nodup hn

theorem mapSet_keysNodup {m : List (String × Nat)} (k : String) (id : Nat)
    (hn : (m.map (fun p => p.1)).Nodup) :
    ((mapSet m k id).map (fun p => p.1)).Nodup := by
  simp only [mapSet, List.map_cons, List.nodup_cons]
  refine ⟨?_, mapDel_keysNodup k hn⟩
  intro hmem
  obtain ⟨p, hp, hpk⟩ := List.mem_map.mp hmem
  exact (mem_mapDel_iff.mp hp).2 hpk

/-! Characterisation of `memoryStore.Set` and the store well-formedness
invariant. -/

/-- The core of the item a `Set` call allocates. -/
def newCore (s : memoryStore Val) (key : String) (value : Val) (lifetime now : Int) :
    itemCore Val :=
  { id := s.nextId, key := key, value := value, expiredAt := now + lifetime }

theorem set_heap_eq (s : memoryStore Val) (key : String) (value : Val)
    (lifetime now : Int) :
    (s.Set key value lifetime now).heap =
      up (s.heap ++ [setIndexField (newMemoryItem s.nextId key value (now + lifetime))
        (s.heap.length : Int)]) s.heap.length := by
  simp only [memoryStore.Set, heapPush, pushStore, List.length_append,
    List.length_cons, List.length_nil, Nat.add_sub_cancel]

theorem set_spec (s : memoryStore Val) (key : String) (value : Val)
    (lifetime now : Int) :
    (s.Set key value lifetime now).index = mapSet s.index key s.nextId ∧
    (s.Set key value lifetime now).nextId = s.nextId + 1 ∧
    (s.Set key value lifetime now).heap.length = s.heap.length + 1 ∧
    ((s.Set key value lifetime now).heap.map core).Perm
      (s.heap.map core ++ [newCore s key value lifetime now]) := by
  refine ⟨rfl, rfl, ?_, ?_⟩
  · rw [set_heap_eq, length_up]
    simp
  · rw [set_heap_eq]
    refine (map_core_up _ _).trans ?_
    simp only [List.map_append, List.map_cons, List.map_nil]
    exact List.Perm.refl _

theorem set_heapMin (s : memoryStore Val) (key : String) (value : Val)
    (lifetime now : Int) (hmin : IsMinHeap s.heap) :
    IsMinHeap (s.Set key value lifetime now).heap := by
  rw [set_heap_eq]
  exact up_correct s.heap.length _ (push_upInv hmin _)

theorem set_posOK (s : memoryStore Val) (key : String) (value : Val)
    (lifetime now : Int) (hp : posOK s.heap) :
    posOK (s.Set key value lifetime now).heap := by
  rw [set_heap_eq]
  exact posOK_up _ _ (posOK_append hp _)

/-- Well-formedness of a store state: positions are recorded correctly,
item identities are unique and below the allocation counter, the index
maps keys to identities of present items with that key, index keys are
unique, and the heap order invariant holds. -/
structure WF (s : memoryStore Val) : Prop where
  pos : posOK s.heap
  idsNodup : (s.heap.map (fun it => it.id)).Nodup
  idsLt : ∀ it ∈ s.heap, it.id < s.nextId
  idx : ∀ p ∈ s.index, ∃ it ∈ s.heap, it.id = p.2 ∧ it.key = p.1
  keysNodup : (s.index.map (fun p => p.1)).Nodup
  heapMin : IsMinHeap s.heap

theorem ids_of_cores (h : List (memoryItem Val)) :
    (h.map core).map (fun c => c.id) = h.map (fun it => it.id) := by
  rw [List.map_map]
  rfl

theorem core_mem_exists {h : List (memoryItem Val)} {c : itemCore Val}
    (hc : c ∈ h.map core) : ∃ it ∈ h, core it = c := by
  obtain ⟨it, hit, rfl⟩ := List.mem_map.mp hc
  exact ⟨it, hit, rfl⟩

/-- With distinct identities, dereferencing an identity of a present item
finds exactly that item. -/
theorem findById_eq {h : List (memoryItem Val)} {it : memoryItem Val}
    (hnodup : (h.map (fun x => x.id)).Nodup) (hmem : it ∈ h) :
    findById h it.id = some it := by
  have hsome : (h.find? (fun x => x.id == it.id)).isSome := by
    rw [List.find?_isSome]
    exact ⟨it, hmem, by simp⟩
  obtain ⟨x, hx⟩ := Option.isSome_iff_exists.mp hsome
  have hxmem : x ∈ h := List.mem_of_find?_eq_some hx
  have hxid : x.id = it.id := by
    have := List.find?_some hx
    simpa using this
  have hxit : x = it := List.inj_on_of_nodup_map hnodup hxmem hmem hxid
  rw [findById, hx, hxit]

theorem wf_init : WF (newMemoryStore Val) := by
  constructor <;> simp [newMemoryStore, posOK, IsMinHeap, heapEdgeOK]

theorem wf_set (s : memoryStore Val) (key : String) (value : Val)
    (lifetime now : Int) (hwf : WF s) : WF (s.Set key value lifetime now) := by
  obtain ⟨hidx_eq, hnext_eq, _, hperm⟩ := set_spec s key value lifetime now
  have hpermIds : ((s.Set key value lifetime now).heap.map (fun it => it.id)).Perm
      (s.heap.map (fun it => it.id) ++ [s.nextId]) := by
    have := hperm.map (fun c => c.id)
    rw [ids_of_cores] at this
    rw [List.map_append] at this
    rw [ids_of_cores] at this
    exact this
  constructor
  · exact set_posOK s key value lifetime now hwf.pos
  · rw [hpermIds.nodup_iff]
    rw [List.nodup_append]
    refine ⟨hwf.idsNodup, List.nodup_singleton _, ?_⟩
    intro x hx hx'
    simp only [List.mem_singleton] at hx'
    subst hx'
    obtain ⟨it, hit, hid⟩ := List.mem_map.mp hx
    exact absurd hid (Nat.ne_of_lt (hwf.idsLt it hit))
  · intro it hit
    have hcore : core it ∈ (s.Set key value lifetime now).heap.map core :=
      List.mem_map_of_mem core hit
    rw [hperm.mem_iff] at hcore
    rw [hnext_eq]
    rcases List.mem_append.mp hcore with hold | hnew
    · obtain ⟨it0, hit0, hc⟩ := core_mem_exists hold
      have : it.id = it0.id := by
        have := congrArg (fun c => c.id) hc
        simpa using this.symm
      rw [this]
      exact Nat.lt_succ_of_lt (hwf.idsLt it0 hit0)
    · simp only [List.mem_singleton] at hnew
      have : it.id = s.nextId := by
        have := congrArg (fun c => c.id) hnew
        simpa [newCore] using this
      omega
  · intro p hp
    rw [hidx_eq] at hp
    rcases List.mem_cons.mp hp with rfl | hp'
    · have hnewmem : newCore s key value lifetime now ∈
          (s.Set key value lifetime now).heap.map core := by
        rw [hperm.mem_iff]
        exact List.mem_append.mpr (Or.inr (List.mem_singleton.mpr rfl))
      obtain ⟨it, hit, hc⟩ := core_mem_exists hnewmem
      refine ⟨it, hit, ?_, ?_⟩
      · have := congrArg (fun c => c.id) hc
        simpa [newCore] using this
      · have := congrArg (fun c => c.key) hc
        simpa [newCore] using this
    · obtain ⟨it0, hit0, hid, hkey⟩ := hwf.idx p (mem_mapDel_iff.mp hp').1
      have hcore : core it0 ∈ (s.Set key value lifetime now).heap.map core := by
        rw [hperm.mem_iff]
        exact List.mem_append.mpr (Or.inl (List.mem_map_of_mem core hit0))
      obtain ⟨it, hit, hc⟩ := core_mem_exists hcore
      refine ⟨it, hit, ?_, ?_⟩
      · have := congrArg (fun c => c.id) hc
        simp only [core] at this
        rw [this, hid]
      · have := congrArg (fun c => c.key) hc
        simp only [core] at this
        rw [this, hkey]
  · rw [hidx_eq]
    exact mapSet_keysNodup key s.nextId hwf.keysNodup
  · exact set_heapMin s key value lifetime now hwf.heapMin

theorem wf_heapRemove (s : memoryStore Val) (i : Nat) (hi : i < s.heap.length)
    (hwf : WF s) : WF (heapRemove s i).1 := by
  obtain ⟨rem, ha, hret, hidx, hnext, hlen, hminR, hperm⟩ :=
    heapRemove_spec s i hi hwf.heapMin
  have hremmem : rem ∈ s.heap := by
    rw [List.mem_iff_getElem?]
    exact ⟨i, ha⟩
  have hpermIds : (rem.id :: (heapRemove s i).1.heap.map (fun it => it.id)).Perm
      (s.heap.map (fun it => it.id)) := by
    have := hperm.map (fun c => c.id)
    rw [List.map_cons, ids_of_cores, ids_of_cores] at this
    exact this
  constructor
  · exact posOK_heapRemove s i hwf.pos
  · exact ((hpermIds.symm.nodup_iff).mp hwf.idsNodup).of_cons
  · intro it hit
    have hcore : core it ∈ core rem :: (heapRemove s i).1.heap.map core :=
      List.mem_cons_of_mem _ (List.mem_map_of_mem core hit)
    rw [hperm.mem_iff] at hcore
    obtain ⟨it0, hit0, hc⟩ := core_mem_exists hcore
    have hideq : it.id = it0.id := by
      have := congrArg (fun c => c.id) hc
      simpa using this.symm
    rw [hnext, hideq]
    exact hwf.idsLt it0 hit0
  · intro p hp
    rw [hidx] at hp
    obtain ⟨hpmem, hpkey⟩ := mem_mapDel_iff.mp hp
    obtain ⟨it0, hit0, hid, hkey⟩ := hwf.idx p hpmem
    have hcore0 : core it0 ∈ core rem :: (heapRemove s i).1.heap.map core := by
      rw [hperm.mem_iff]
      exact List.mem_map_of_mem core hit0
    rcases List.mem_cons.mp hcore0 with heqc | htail
    · exfalso
      have : it0.key = rem.key := by
        have := congrArg (fun c => c.key) heqc
        simpa using this
      rw [hkey] at this
      exact hpkey this
    · obtain ⟨it, hit, hc⟩ := core_mem_exists htail
      refine ⟨it, hit, ?_, ?_⟩
      · have := congrArg (fun c => c.id) hc
        simp only [core] at this
        rw [this, hid]
      · have := congrArg (fun c => c.key) hc
        simp only [core] at this
        rw [this, hkey]
  · rw [hidx]
    exact mapDel_keysNodup _ hwf.keysNodup
  · exact hminR

theorem wf_delete (s : memoryStore Val) (key : String) (hwf : WF s) :
    WF (s.Delete key) := by
  cases hlook : mapLookup s.index key with
  | none => simpa [memoryStore.Delete, hlook] using hwf
  | some id =>
    cases hfind : findById s.heap id with
    | none => simpa [memoryStore.Delete, hlook, hfind] using hwf
    | some item =>
      have hmem : item ∈ s.heap := List.mem_of_find?_eq_some hfind
      obtain ⟨k, hk⟩ := List.mem_iff_getElem?.mp hmem
      have hidx_k : item.index = (k : Int) := hwf.pos k item hk
      have hklt : k < s.heap.length := lt_length_of_getElem? hk
      have htn : item.index.toNat = k := by
        rw [hidx_k]
        exact Int.toNat_ofNat k
      have hgoal : s.Delete key = (heapRemove s item.index.toNat).1 := by
        simp [memoryStore.Delete, hlook, hfind]
      rw [hgoal, htn]
      exact wf_heapRemove s k hklt hwf

theorem wf_flush (s : memoryStore Val) (hwf : WF s) : WF s.Flush := by
  constructor <;> simp [memoryStore.Flush, posOK, IsMinHeap, heapEdgeOK]

theorem wf_gcLoop :
    ∀ (fuel : Nat) (s : memoryStore Val) (now : Int), WF s →
      WF (gcLoop s now fuel).1 := by
  intro fuel
  induction fuel with
  | zero => intro s now hwf; exact hwf
  | succ fuel ih =>
    intro s now hwf
    cases hhd : s.heap.head? with
    | none => simpa [gcLoop, hhd] using hwf
    | some c =>
      simp only [gcLoop, hhd]
      split
      · exact hwf
      · show WF (gcLoop (heapRemove s c.index.toNat).1 now fuel).1
        have h0 : s.heap[0]? = some c := by
          rw [← List.head?_eq_getElem?]
          exact hhd
        have hc0 : c.index = ((0 : Nat) : Int) := hwf.pos 0 c h0
        have htn : c.index.toNat = 0 := by
          rw [hc0]
          rfl
        rw [htn]
        exact ih _ now (wf_heapRemove s 0 (lt_length_of_getElem? h0) hwf)

theorem wf_gc (s : memoryStore Val) (now : Int) (hwf : WF s) : WF (s.GC now).1 :=
  wf_gcLoop s.heap.length s now hwf

/-- Every reachable store state is well formed. -/
theorem reachable_wf {s : memoryStore Val} (hr : Reachable s) : WF s := by
  induction hr with
  | init => exact wf_init
  | set s key value lifetime now _ ih => exact wf_set s key value lifetime now ih
  | del s key _ ih => exact wf_delete s key ih
  | flush s _ ih => exact wf_flush s ih
  | gc s now _ ih => exact wf_gc s now ih

/-- The item a key's index entry points at (the dereferenced
`s.index[key]`), if any. -/
def lookupItem (s : memoryStore Val) (key : String) : Option (memoryItem Val) :=
  match mapLookup s.index key with
  | none => none
  | some id => findById s.heap id

theorem get_eq_lookupItem (s : memoryStore Val) (key : String) (now : Int) :
    s.Get key now =
      match lookupItem s key with
      | none => none
      | some item => if ¬ now < item.expiredAt then none else some item.value := by
  cases hm : mapLookup s.index key with
  | none => simp [memoryStore.Get, lookupItem, hm]
  | some id => simp [memoryStore.Get, lookupItem, hm]

/-- On a well-formed store the index never dangles: a mapped key always
dereferences to a present item carrying that key and identity. -/
theorem lookupItem_of_wf {s : memoryStore Val} (hwf : WF s) {key : String} {id : Nat}
    (hm : mapLookup s.index key = some id) :
    ∃ it, lookupItem s key = some it ∧ it ∈ s.heap ∧ it.id = id ∧ it.key = key := by
  obtain ⟨it0, hit0, hid, hkey⟩ := hwf.idx (key, id) (mapLookup_mem hm)
  have hid' : it0.id = id := hid
  have hkey' : it0.key = key := hkey
  have hf : findById s.heap id = some it0 := by
    rw [← hid']
    exact findById_eq hwf.idsNodup hit0
  refine ⟨it0, ?_, hit0, hid', hkey'⟩
  simp only [lookupItem, hm, hf]

/-- Behaviour of `Get` on well-formed stores, split by the index lookup. -/
theorem get_cases {s : memoryStore Val} (hwf : WF s) (key : String) (now : Int) :
    (mapLookup s.index key = none → s.Get key now = none ∧ lookupItem s key = none) ∧
    (∀ it, lookupItem s key = some it →
      ((it.expiredAt ≤ now → s.Get key now = none) ∧
        (now < it.expiredAt → s.Get key now = some it.value))) := by
  constructor
  · intro hm
    constructor
    · rw [get_eq_lookupItem]
      simp only [lookupItem, hm]
    · simp only [lookupItem, hm]
  · intro it hit
    rw [get_eq_lookupItem]
    simp only [hit]
    constructor
    · intro hexp
      rw [if_pos (show ¬ now < it.expiredAt by omega)]
    · intro hexp
      rw [if_neg (show ¬ ¬ now < it.expiredAt by omega)]

end FlamegoCache

namespace FlamegoCache

variable {Val : Type}

/-- C4: the in-memory `Get` signals `NotFound` (returns `nil`) exactly
when the key is absent from the index or the entry it maps to has
`expiredAt ≤ now` (expiring exactly at "now" counts as expired); when the
key is present and unexpired, `Get` returns the stored value.  The
synchronous read path is a pure function of the store (the embedding
returns no modified state; the cleanup it spawns on an expired hit is an
asynchronous `Delete` transition). -/
theorem get_notfound_iff {s : memoryStore Val} (hr : Reachable s) (key : String)
    (now : Int) :
    (s.Get key now = none ↔
      (mapLookup s.index key = none ∨
        ∃ it, lookupItem s key = some it ∧ it.expiredAt ≤ now)) ∧
    (∀ it, lookupItem s key = some it → now < it.expiredAt →
      s.Get key now = some it.value) := by
  have hwf := reachable_wf hr
  obtain ⟨habsent, hpresent⟩ := get_cases hwf key now
  constructor
  · cases hm : mapLookup s.index key with
    | none =>
      obtain ⟨hget, _⟩ := habsent hm
      rw [hget]
      simp
    | some id =>
      obtain ⟨it, hit, hmem, hid, hkey⟩ := lookupItem_of_wf hwf hm
      obtain ⟨hexp_none, hexp_some⟩ := hpresent it hit
      constructor
      · intro hnone
        by_cases hlt : now < it.expiredAt
        · rw [hexp_some hlt] at hnone
          cases hnone
        · exact Or.inr ⟨it, hit, by omega⟩
      · rintro (hm' | ⟨it', hit', hexp⟩)
        · exact absurd hm' (by simp)
        · rw [hit] at hit'
          cases hit'
          exact hexp_none hexp
  · intro it hit hlt
    exact ((hpresent it hit).2) hlt

/-- Witness for C4 at a concrete reachable store: after `Set("a", 7, 5)`
at clock `0`, a `Get` of the absent key `"b"` is `NotFound`, a `Get` of
`"a"` at clock `5` (expiry instant) is `NotFound`, and at clock `4` the
value is returned. -/
theorem get_notfound_iff_witness :
    ((newMemoryStore Nat).Set "a" 7 5 0).Get "b" 5 = none ∧
    ((newMemoryStore Nat).Set "a" 7 5 0).Get "a" 5 = none ∧
    ((newMemoryStore Nat).Set "a" 7 5 0).Get "a" 4 = some 7 := by
  have hr : Reachable ((newMemoryStore Nat).Set "a" 7 5 0) :=
    Reachable.set _ "a" 7 5 0 Reachable.init
  refine ⟨?_, ?_, ?_⟩
  · exact ((get_notfound_iff hr "b" 5).1).mpr (Or.inl (by decide))
  · exact ((get_notfound_iff hr "a" 5).1).mpr
      (Or.inr ⟨⟨0, "a", 7, 5, 0⟩, by decide, by decide⟩)
  · exact (get_notfound_iff hr "a" 4).2 ⟨0, "a", 7, 5, 0⟩ (by decide) (by decide)

/-- C9: on every reachable state, each key in the index map dereferences
to an item that sits in the heap slice at exactly the position its
`index` field records (`0 ≤ index < len(heap)` and `heap[index]` is that
very item, carrying the looked-up key); `Delete`, which removes
`heap[item.index]`, therefore removes precisely the slot the index
refers to. -/
theorem index_positions_correct {s : memoryStore Val} (hr : Reachable s) :
    ∀ (key : String) (id : Nat), mapLookup s.index key = some id →
      ∃ it, lookupItem s key = some it ∧ it.key = key ∧
        0 ≤ it.index ∧ it.index < (s.heap.length : Int) ∧
        s.heap[it.index.toNat]? = some it := by
  intro key id hm
  have hwf := reachable_wf hr
  obtain ⟨it, hit, hmem, hid, hkey⟩ := lookupItem_of_wf hwf hm
  obtain ⟨k, hk⟩ := List.mem_iff_getElem?.mp hmem
  have hpos : it.index = (k : Int) := hwf.pos k it hk
  have hklt : k < s.heap.length := lt_length_of_getElem? hk
  refine ⟨it, hit, hkey, ?_, ?_, ?_⟩
  · rw [hpos]
    exact Int.natCast_nonneg k
  · rw [hpos]
    exact_mod_cast hklt
  · rw [hpos, Int.toNat_ofNat]
    exact hk

/-- Witness for C9 at a concrete reachable store with two keys. -/
theorem index_positions_correct_witness :
    (mapLookup (((newMemoryStore Nat).Set "a" 1 9 0).Set "b" 2 3 0).index "a" = some 0) ∧
    ∃ it, lookupItem (((newMemoryStore Nat).Set "a" 1 9 0).Set "b" 2 3 0) "a" = some it ∧
      it.key = "a" ∧ 0 ≤ it.index ∧
      it.index < ((((newMemoryStore Nat).Set "a" 1 9 0).Set "b" 2 3 0).heap.length : Int) ∧
      (((newMemoryStore Nat).Set "a" 1 9 0).Set "b" 2 3 0).heap[it.index.toNat]? = some it := by
  have hr : Reachable (((newMemoryStore Nat).Set "a" 1 9 0).Set "b" 2 3 0) :=
    Reachable.set _ "b" 2 3 0 (Reachable.set _ "a" 1 9 0 Reachable.init)
  exact ⟨by decide, index_positions_correct hr "a" 0 (by decide)⟩

/-- C10: a `Set` with a non-positive lifetime succeeds and creates an
entry (the heap grows by one slot) whose expiry `now + lifetime` is not
after `now`, so an immediately following `Get` of the key under an
unchanged clock signals `NotFound` — a zero lifetime does not mean
"no expiry". -/
theorem set_nonpositive_lifetime_get_none {s : memoryStore Val} (hr : Reachable s)
    (key : String) (value : Val) (lifetime now : Int) (hlt : lifetime ≤ 0) :
    (s.Set key value lifetime now).heap.length = s.heap.length + 1 ∧
    (s.Set key value lifetime now).Get key now = none := by
  obtain ⟨hidx_eq, _, hlen, hperm⟩ := set_spec s key value lifetime now
  have hwf' : WF (s.Set key value lifetime now) :=
    wf_set s key value lifetime now (reachable_wf hr)
  refine ⟨hlen, ?_⟩
  have hm : mapLookup (s.Set key value lifetime now).index key = some s.nextId := by
    rw [hidx_eq]
    exact mapLookup_mapSet_self s.index key s.nextId
  obtain ⟨it, hit, hmem, hid, hkey⟩ := lookupItem_of_wf hwf' hm
  have hexp : it.expiredAt = now + lifetime := by
    have hcore : core it ∈ (s.Set key value lifetime now).heap.map core :=
      List.mem_map_of_mem core hmem
    rw [hperm.mem_iff] at hcore
    rcases List.mem_append.mp hcore with hold | hnew
    · exfalso
      obtain ⟨it0, hit0, hc⟩ := core_mem_exists hold
      have : it0.id = it.id := by
        have := congrArg (fun c => c.id) hc
        simpa using this
      have hlt0 := (reachable_wf hr).idsLt it0 hit0
      rw [this, hid] at hlt0
      omega
    · simp only [List.mem_singleton] at hnew
      have := congrArg (fun c => c.expiredAt) hnew
      simpa [newCore] using this
  have := ((get_cases hwf' key now).2 it hit).1
  exact this (by omega)

/-- Witness for C10: `Set("k", 1, lifetime 0)` and `Set("j", 2, lifetime
-3)` at clock `5` both create an entry that an immediate `Get` misses. -/
theorem set_nonpositive_lifetime_get_none_witness :
    (((newMemoryStore Nat).Set "k" 1 0 5).heap.length = 1 ∧
      ((newMemoryStore Nat).Set "k" 1 0 5).Get "k" 5 = none) ∧
    ((((newMemoryStore Nat).Set "j" 2 (-3) 5).heap.length = 1 ∧
      ((newMemoryStore Nat).Set "j" 2 (-3) 5).Get "j" 5 = none)) := by
  constructor
  · exact set_nonpositive_lifetime_get_none Reachable.init "k" 1 0 5 (by omega)
  · exact set_nonpositive_lifetime_get_none Reachable.init "j" 2 (-3) 5 (by omega)

theorem popStore_heap_length (s : memoryStore Val) (hne : s.heap ≠ []) :
    (popStore s).1.heap.length = s.heap.length - 1 := by
  rw [popStore_eq s hne]
  simp

theorem popStore_record_length (s : memoryStore Val) (H : List (memoryItem Val))
    (hH : H.length = s.heap.length) (hne : s.heap ≠ []) :
    (popStore { s with heap := H }).1.heap.length = s.heap.length - 1 := by
  have hpos : 0 < s.heap.length := List.length_pos.mpr hne
  have hne2 : ({ s with heap := H } : memoryStore Val).heap ≠ [] := by
    show H ≠ []
    intro h0
    rw [h0] at hH
    simp at hH
    omega
  rw [popStore_heap_length _ hne2]
  show H.length - 1 = _
  rw [hH]

theorem heapRemove_heap_length (s : memoryStore Val) (i : Nat) (hne : s.heap ≠ []) :
    (heapRemove s i).1.heap.length = s.heap.length - 1 := by
  simp only [heapRemove]
  split
  · exact popStore_heap_length s hne
  · apply popStore_record_length
    · split
      · rw [length_down, length_swapHeap]
      · rw [length_up, length_down, length_swapHeap]
    · exact hne

/-- Repeatedly read the heap's minimum and `heap.Remove` it (the
removal mechanism `GC` uses), collecting the roots in order. -/
def drain (s : memoryStore Val) : List (memoryItem Val) :=
  match hh : s.heap.head? with
  | none => []
  | some c => c :: drain (heapRemove s 0).1
termination_by s.heap.length
decreasing_by
  have hne : s.heap ≠ [] := by
    intro h0
    rw [h0] at hh
    cases hh
  have hpos : 0 < s.heap.length := List.length_pos.mpr hne
  have := heapRemove_heap_length s 0 hne
  omega

/-- Every expiry observed while draining is the expiry of an item of the
starting heap. -/
theorem drain_exp_bound :
    ∀ (n : Nat) (s : memoryStore Val), s.heap.length ≤ n → WF s →
      ∀ x ∈ (drain s).map (fun it => it.expiredAt),
        ∃ c ∈ s.heap.map core, c.expiredAt = x := by
  intro n
  induction n with
  | zero =>
    intro s hlen _ x hx
    have hnil : s.heap = [] := List.length_eq_zero.mp (by omega)
    rw [drain] at hx
    rw [hnil] at hx
    simp at hx
  | succ n ih =>
    intro s hlen hwf x hx
    rw [drain] at hx
    cases hh : s.heap.head? with
    | none =>
      rw [hh] at hx
      simp at hx
    | some c =>
      rw [hh] at hx
      simp only [List.map_cons, List.mem_cons] at hx
      have h0 : s.heap[0]? = some c := by
        rw [← List.head?_eq_getElem?]
        exact hh
      have h0lt : 0 < s.heap.length := lt_length_of_getElem? h0
      rcases hx with rfl | hx'
      · refine ⟨core c, ?_, rfl⟩
        apply List.mem_map_of_mem
        rw [List.mem_iff_getElem?]
        exact ⟨0, h0⟩
      · obtain ⟨rem, _, _, _, _, hlen', _, hperm⟩ :=
          heapRemove_spec s 0 h0lt hwf.heapMin
        have hwf' : WF (heapRemove s 0).1 := wf_heapRemove s 0 h0lt hwf
        obtain ⟨c', hc'mem, hc'x⟩ := ih (heapRemove s 0).1 (by omega) hwf' x hx'
        refine ⟨c', ?_, hc'x⟩
        rw [← hperm.mem_iff]
        exact List.mem_cons_of_mem _ hc'mem

/-- Draining a well-formed store yields the entries in non-decreasing
expiry order. -/
theorem drain_sorted :
    ∀ (n : Nat) (s : memoryStore Val), s.heap.length ≤ n → WF s →
      List.Sorted (· ≤ ·) ((drain s).map (fun it => it.expiredAt)) := by
  intro n
  induction n with
  | zero =>
    intro s hlen _
    have hnil : s.heap = [] := List.length_eq_zero.mp (by omega)
    rw [drain]
    rw [hnil]
    simp
  | succ n ih =>
    intro s hlen hwf
    rw [drain]
    cases hh : s.heap.head? with
    | none => simp
    | some c =>
      simp only [List.map_cons, List.sorted_cons]
      have h0 : s.heap[0]? = some c := by
        rw [← List.head?_eq_getElem?]
        exact hh
      have h0lt : 0 < s.heap.length := lt_length_of_getElem? h0
      obtain ⟨rem, _, _, _, _, hlen', _, hperm⟩ :=
        heapRemove_spec s 0 h0lt hwf.heapMin
      have hwf' : WF (heapRemove s 0).1 := wf_heapRemove s 0 h0lt hwf
      constructor
      · intro b hb
        obtain ⟨c', hc'mem, hc'b⟩ :=
          drain_exp_bound n (heapRemove s 0).1 (by omega) hwf' b hb
        have hc'orig : c' ∈ s.heap.map core := by
          rw [← hperm.mem_iff]
          exact List.mem_cons_of_mem _ hc'mem
        obtain ⟨it0, hit0, hcore0⟩ := core_mem_exists hc'orig
        obtain ⟨k, hk⟩ := List.mem_iff_getElem?.mp hit0
        have hroot := isMinHeap_root_le hwf.heapMin k c it0 h0 hk
        have : it0.expiredAt = b := by
          rw [← hc'b, ← hcore0]
          rfl
        omega
      · exact ih (heapRemove s 0).1 (by omega) hwf'

/-- A sequence of `Set` calls applied to the fresh store. -/
def applySets (ops : List (String × Val × Int × Int)) : memoryStore Val :=
  ops.foldl (fun s op => s.Set op.1 op.2.1 op.2.2.1 op.2.2.2) (newMemoryStore Val)

theorem wf_foldl_set :
    ∀ (ops : List (String × Val × Int × Int)) (s : memoryStore Val), WF s →
      WF (ops.foldl (fun s op => s.Set op.1 op.2.1 op.2.2.1 op.2.2.2) s) := by
  intro ops
  induction ops with
  | nil => intro s hwf; exact hwf
  | cons op rest ih =>
    intro s hwf
    exact ih _ (wf_set s op.1 op.2.1 op.2.2.1 op.2.2.2 hwf)

theorem wf_applySets (ops : List (String × Val × Int × Int)) :
    WF (applySets ops) :=
  wf_foldl_set ops (newMemoryStore Val) wf_init

theorem keys_of_cores (h : List (memoryItem Val)) :
    (h.map core).map (fun c => c.key) = h.map (fun it => it.key) := by
  rw [List.map_map]
  rfl

/-- A store state in which, additionally to well-formedness, no two heap
slots share a key and every heap item is registered in the index under
its key.  These are the data-model invariants the spec asserts; they hold
as long as no live key is overwritten (see C1/C2). -/
structure Consistent (s : memoryStore Val) : Prop where
  wf : WF s
  heapKeysNodup : (s.heap.map (fun it => it.key)).Nodup
  full : ∀ it ∈ s.heap, mapLookup s.index it.key = some it.id

/-- Correctness of the `GC` loop on consistent states: it removes
exactly the expired entries (minimum first, in non-decreasing expiry
order) and every unexpired entry stays retrievable with its value. -/
theorem gcLoop_correct :
    ∀ (fuel : Nat) (s : memoryStore Val) (now : Int), s.heap.length ≤ fuel →
      Consistent s →
      (((gcLoop s now fuel).1.heap.map core).Perm
        ((s.heap.map core).filter (fun c => decide (now < c.expiredAt)))) ∧
      (((gcLoop s now fuel).2.map core).Perm
        ((s.heap.map core).filter (fun c => !(decide (now < c.expiredAt))))) ∧
      List.Sorted (· ≤ ·) ((gcLoop s now fuel).2.map (fun it => it.expiredAt)) ∧
      (∀ it ∈ s.heap, now < it.expiredAt →
        (gcLoop s now fuel).1.Get it.key now = some it.value) := by
  intro fuel
  induction fuel with
  | zero =>
    intro s now hlen _
    have hnil : s.heap = [] := List.length_eq_zero.mp (by omega)
    rw [hnil]
    simp [gcLoop, hnil]
  | succ fuel ih =>
    intro s now hlen hc
    have hwf := hc.wf
    cases hh : s.heap.head? with
    | none =>
      have hnil : s.heap = [] := List.head?_eq_none_iff.mp hh
      rw [hnil]
      simp [gcLoop, hnil]
    | some c =>
      have h0 : s.heap[0]? = some c := by
        rw [← List.head?_eq_getElem?]
        exact hh
      have h0lt : 0 < s.heap.length := lt_length_of_getElem? h0
      have htn : c.index.toNat = 0 := by
        rw [hwf.pos 0 c h0]
        rfl
      have hstep : gcLoop s now (fuel + 1) =
          if now < c.expiredAt then (s, [])
          else ((gcLoop (heapRemove s 0).1 now fuel).1,
            (heapRemove s 0).2.toList ++ (gcLoop (heapRemove s 0).1 now fuel).2) := by
        simp only [gcLoop, hh, htn]
      rw [hstep]
      by_cases hexp : now < c.expiredAt
      · rw [if_pos hexp]
        have hall : ∀ cc ∈ s.heap.map core, decide (now < cc.expiredAt) = true := by
          intro cc hcc
          obtain ⟨it0, hit0, rfl⟩ := core_mem_exists hcc
          obtain ⟨k, hk⟩ := List.mem_iff_getElem?.mp hit0
          have := isMinHeap_root_le hwf.heapMin k c it0 h0 hk
          simp only [core, decide_eq_true_eq]
          omega
        refine ⟨?_, ?_, ?_, ?_⟩
        · rw [List.filter_eq_self.mpr hall]
        · rw [List.filter_eq_nil_iff.mpr (by
            intro cc hcc
            rw [hall cc hcc]
            simp)]
          exact List.Perm.nil
        · exact List.sorted_nil
        · intro it hit hlt
          have hm := hc.full it hit
          obtain ⟨it', hit', hmem', hid', hkey'⟩ := lookupItem_of_wf hwf hm
          have hiteq : it' = it := by
            apply List.inj_on_of_nodup_map ?_ hmem' hit hid'
            exact hwf.idsNodup
          rw [hiteq] at hit'
          exact ((get_cases hwf it.key now).2 it hit').2 hlt
      · rw [if_neg hexp]
        obtain ⟨rem, hrem0, hret, hidx, hnext, hlen', hminR, hperm⟩ :=
          heapRemove_spec s 0 h0lt hwf.heapMin
        have hremc : rem = c := by
          rw [h0] at hrem0
          cases hrem0
          rfl
        subst hremc
        have hwf' : WF (heapRemove s 0).1 := wf_heapRemove s 0 h0lt hwf
        have hkeysperm : (rem.key :: (heapRemove s 0).1.heap.map (fun it => it.key)).Perm
            (s.heap.map (fun it => it.key)) := by
          have := hperm.map (fun cc => cc.key)
          rw [List.map_cons, keys_of_cores, keys_of_cores] at this
          exact this
        have hkeysN : (rem.key :: (heapRemove s 0).1.heap.map (fun it => it.key)).Nodup :=
          (hkeysperm.symm.nodup_iff).mp hc.heapKeysNodup
        have hkeynotin : rem.key ∉ (heapRemove s 0).1.heap.map (fun it => it.key) :=
          (List.nodup_cons.mp hkeysN).1
        have hc' : Consistent (heapRemove s 0).1 := by
          refine ⟨hwf', hkeysN.of_cons, ?_⟩
          intro it' hit'
          have hcore' : core it' ∈ (heapRemove s 0).1.heap.map core :=
            List.mem_map_of_mem core hit'
          have hcoreS : core it' ∈ s.heap.map core := by
            rw [← hperm.mem_iff]
            exact List.mem_cons_of_mem _ hcore'
          obtain ⟨it0, hit0, hcore0⟩ := core_mem_exists hcoreS
          have hkeyne : it'.key ≠ rem.key := by
            intro hkeq
            apply hkeynotin
            rw [← hkeq]
            exact List.mem_map_of_mem _ hit'
          rw [hidx, mapLookup_mapDel_other s.index hkeyne]
          have hkey0 : it0.key = it'.key := by
            have := congrArg (fun cc => cc.key) hcore0
            simpa using this
          have hid0 : it0.id = it'.id := by
            have := congrArg (fun cc => cc.id) hcore0
            simpa using this
          rw [← hkey0, ← hid0]
          exact hc.full it0 hit0
        obtain ⟨iha, ihb, ihc', ihd⟩ := ih (heapRemove s 0).1 now (by omega) hc'
        have hremoved_eq : (heapRemove s 0).2.toList = [setIndexField rem (-1)] := by
          rw [hret]
          rfl
        have hFperm : (((heapRemove s 0).1.heap.map core).filter
            (fun cc => decide (now < cc.expiredAt))).Perm
            ((s.heap.map core).filter (fun cc => decide (now < cc.expiredAt))) := by
          have h1 := hperm.filter (fun cc => decide (now < cc.expiredAt))
          rw [List.filter_cons_of_neg (by
            simp only [core, decide_eq_true_eq]
            exact hexp)] at h1
          exact h1
        have hGperm : (core rem :: ((heapRemove s 0).1.heap.map core).filter
            (fun cc => !(decide (now < cc.expiredAt)))).Perm
            ((s.heap.map core).filter (fun cc => !(decide (now < cc.expiredAt)))) := by
          have h1 := hperm.filter (fun cc => !(decide (now < cc.expiredAt)))
          rw [List.filter_cons_of_pos (by
            simp only [Bool.not_eq_true']
            exact decide_eq_false hexp)] at h1
          exact h1
        refine ⟨?_, ?_, ?_, ?_⟩
        · exact iha.trans hFperm
        · rw [hremoved_eq]
          simp only [List.map_cons, List.cons_append, List.nil_append]
          have hcons : (core (setIndexField rem (-1)) ::
              ((gcLoop (heapRemove s 0).1 now fuel).2.map core)).Perm
              (core rem :: ((heapRemove s 0).1.heap.map core).filter
                (fun cc => !(decide (now < cc.expiredAt)))) := by
            rw [core_setIndexField]
            exact ihb.cons _
          exact hcons.trans hGperm
        · rw [hremoved_eq]
          simp only [List.map_cons, List.cons_append, List.nil_append,
            List.sorted_cons]
          refine ⟨?_, ihc'⟩
          intro b hb
          simp only [expiredAt_setIndexField]
          obtain ⟨itb, hitb, rfl⟩ := List.mem_map.mp hb
          have hcoreb : core itb ∈ (gcLoop (heapRemove s 0).1 now fuel).2.map core :=
            List.mem_map_of_mem core hitb
          have hcoreb' : core itb ∈ ((heapRemove s 0).1.heap.map core).filter
              (fun cc => !(decide (now < cc.expiredAt))) := ihb.mem_iff.mp hcoreb
          have hcoreb'' : core itb ∈ s.heap.map core := by
            rw [← hperm.mem_iff]
            exact List.mem_cons_of_mem _ (List.mem_of_mem_filter hcoreb')
          obtain ⟨it0, hit0, hcore0⟩ := core_mem_exists hcoreb''
          obtain ⟨k, hk⟩ := List.mem_iff_getElem?.mp hit0
          have := isMinHeap_root_le hwf.heapMin k rem it0 h0 hk
          have hexpeq : it0.expiredAt = itb.expiredAt := by
            have := congrArg (fun cc => cc.expiredAt) hcore0
            simpa using this
          omega
        · intro it hit hlt
          have hcoreS : core it ∈ s.heap.map core := List.mem_map_of_mem core hit
          rw [← hperm.mem_iff] at hcoreS
          rcases List.mem_cons.mp hcoreS with heqc | htail
          · exfalso
            have : it.expiredAt = rem.expiredAt := by
              have := congrArg (fun cc => cc.expiredAt) heqc
              simpa using this
            omega
          · obtain ⟨it'', hit'', hcore''⟩ := core_mem_exists htail
            have hkey'' : it''.key = it.key := by
              have := congrArg (fun cc => cc.key) hcore''
              simpa using this
            have hval'' : it''.value = it.value := by
              have := congrArg (fun cc => cc.value) hcore''
              simpa using this
            have hexp'' : it''.expiredAt = it.expiredAt := by
              have := congrArg (fun cc => cc.expiredAt) hcore''
              simpa using this
            have := ihd it'' hit'' (by omega)
            rw [hkey'', hval''] at this
            exact this

/-- C7: after any sequence of `Set` calls on the fresh store, the heap is
a valid min-heap ordered by `expiredAt`: the root (if any) has the
earliest expiration of all entries, and repeatedly reading the minimum
and removing it (`drain`, which uses the store's own `heap.Remove` of the
root, as `GC` does) yields the entries in non-decreasing expiration
order. -/
theorem set_sequence_heap_order (ops : List (String × Val × Int × Int)) :
    IsMinHeap (applySets ops).heap ∧
    (∀ (k : Nat) (r a : memoryItem Val), (applySets ops).heap[0]? = some r →
      (applySets ops).heap[k]? = some a → r.expiredAt ≤ a.expiredAt) ∧
    List.Sorted (· ≤ ·) ((drain (applySets ops)).map (fun it => it.expiredAt)) := by
  have hwf := wf_applySets ops
  exact ⟨hwf.heapMin,
    fun k r a h0 hk => isMinHeap_root_le hwf.heapMin k r a h0 hk,
    drain_sorted (applySets ops).heap.length _ le_rfl hwf⟩

/-- C3 amended: on consistent states (valid min-heap and a one-to-one
key correspondence between heap and index — the data-model invariants,
which hold whenever no live key was overwritten), `GC` at time `now`
removes exactly the entries whose expiration is not after `now`, visiting
them in non-decreasing expiration order from the heap minimum, and every
entry whose expiration is after `now` remains retrievable with its value
unchanged.  The counterexample theorem shows the claim fails as stated on
reachable duplicate-key states. -/
theorem gc_reclaims_exactly_expired (s : memoryStore Val) (now : Int)
    (hc : Consistent s) :
    (((s.GC now).1.heap.map core).Perm
      ((s.heap.map core).filter (fun c => decide (now < c.expiredAt)))) ∧
    (((s.gcRemoved now).map core).Perm
      ((s.heap.map core).filter (fun c => !(decide (now < c.expiredAt))))) ∧
    List.Sorted (· ≤ ·) ((s.gcRemoved now).map (fun it => it.expiredAt)) ∧
    (∀ it ∈ s.heap, now < it.expiredAt →
      (s.GC now).1.Get it.key now = some it.value) :=
  gcLoop_correct s.heap.length s now le_rfl hc

/-- Store with two distinct keys: `"a"` expires at `1`, `"b"` at `9`. -/
def gcWitnessStore : memoryStore Nat :=
  ((newMemoryStore Nat).Set "a" 1 1 0).Set "b" 2 9 0

/-- Witness for C3's amended theorem: sweeping `gcWitnessStore` at clock
`2` removes exactly the entry `"a"` (expiry `1 ≤ 2`) and leaves `"b"`
retrievable. -/
theorem gc_reclaims_exactly_expired_witness :
    (((gcWitnessStore.GC 2).1.heap.map core).Perm
      ((gcWitnessStore.heap.map core).filter (fun c => decide (2 < c.expiredAt)))) ∧
    (((gcWitnessStore.gcRemoved 2).map core).Perm
      ((gcWitnessStore.heap.map core).filter (fun c => !(decide (2 < c.expiredAt))))) ∧
    List.Sorted (· ≤ ·) ((gcWitnessStore.gcRemoved 2).map (fun it => it.expiredAt)) ∧
    (∀ it ∈ gcWitnessStore.heap, 2 < it.expiredAt →
      (gcWitnessStore.GC 2).1.Get it.key 2 = some it.value) :=
  gc_reclaims_exactly_expired gcWitnessStore 2
    ⟨wf_set _ "b" 2 9 0 (wf_set _ "a" 1 1 0 wf_init), by decide, by decide⟩

/-! Concrete stores used by the claim-level evaluations.  `dupStore` is
reached from the empty store by writing key `"k"` twice at clock `0`:
first with lifetime `1` (expiry `1`), then with lifetime `10`
(expiry `10`). -/

/-- Store after `Set("k", 1, lifetime 1)` at clock 0. -/
def dupStore1 : memoryStore Nat := (newMemoryStore Nat).Set "k" 1 1 0

/-- Store after additionally `Set("k", 2, lifetime 10)` at clock 0:
the second write of the same live key. -/
def dupStore : memoryStore Nat := dupStore1.Set "k" 2 10 0

/-- C1: refuted as stated.  Writing a key that already has a live entry
does not replace it in place: after `Set("k", ·, 1)` then `Set("k", ·, 10)`
at the same clock, the heap holds two slots for `"k"` (the old slot is
kept), even though the index maps `"k"` to the new value and expiry.
`memoryStore.Set` pushes a fresh item unconditionally, while
`memoryStore.Pop` deregisters by key — the store's own index design
assumes at most one slot per key, so the spec states the intent and the
code is the slip. -/
theorem set_existing_key_appends_duplicate_slot :
    (dupStore.heap.filter (fun it => it.key == "k")).length = 2 ∧
    dupStore.heap.length = 2 ∧
    dupStore.Get "k" 0 = some 2 ∧
    (dupStore.heap.map (fun it => (it.key, it.value, it.expiredAt))) =
      [("k", 1, 1), ("k", 2, 10)] := by
  decide

/-- C2: refuted as stated.  Immediately after the public operation
`Set("k", ·, 10)` on a store whose index already maps the live key `"k"`,
the key index and the heap are not in bijection: one key is reachable via
lookup but the heap holds two live slots (both expiries exceed the clock
`0`), so the number of keys reachable via lookup (1) differs from the
number of live entries in the structure (2). -/
theorem index_heap_bijection_fails_after_overwrite :
    dupStore.index.length = 1 ∧
    dupStore.heap.length = 2 ∧
    (dupStore.heap.filter (fun it => decide (0 < it.expiredAt))).length = 2 := by
  decide

/-- C3 counterexample: on the reachable state `dupStore` (two heap slots
for `"k"`, expiries `1` and `10`), running `GC` at clock `1` removes the
expired stale slot but also deregisters `"k"` — afterwards the unexpired
entry (expiry `10 > 1`, value `2`) is still in the heap yet `Get` can no
longer retrieve it, contradicting "every entry whose expiration is after
the current time remains present and retrievable". -/
theorem gc_unregisters_live_key_after_overwrite :
    ((dupStore.GC 1).1.heap.map (fun it => (it.key, it.value, it.expiredAt))) =
      [("k", 2, 10)] ∧
    (dupStore.GC 1).1.index = [] ∧
    (dupStore.GC 1).1.Get "k" 1 = none := by
  decide

/-- Store holding two entries (keys `"a"`, `"b"`) that are both expired by
clock `5`. -/
def twoExpiredStore : memoryStore Nat :=
  ((newMemoryStore Nat).Set "a" 1 1 0).Set "b" 2 2 0

/-- C5 counterexample: the value `memoryStore.GC` returns to its caller is
the same (`nil`, i.e. `none`) whether the sweep removed two entries or
none, so the in-memory `GC` does not return the number of entries it
removed — its return value carries success/failure only. -/
theorem gc_return_carries_no_removal_count :
    (twoExpiredStore.GC 5).2 = none ∧
    ((newMemoryStore Nat).GC 5).2 = none ∧
    (twoExpiredStore.gcRemoved 5).length = 2 ∧
    ((newMemoryStore Nat).gcRemoved 5).length = 0 := by
  decide

/-- C5 amended: the in-memory `GC` reports only success or failure, and it
cannot fail — it returns `nil` on every state and at every clock. -/
theorem gc_never_fails {Val : Type} (s : memoryStore Val) (now : Int) :
    (s.GC now).2 = none := rfl

/-- C6 counterexample: with a stored binary for key `"k"` whose bytes make
the injected decoder fail, `fileStore.Get` surfaces the wrapped decode
error to the caller instead of signalling `NotFound` — the caller can
distinguish the corrupt record from an absent key. -/
theorem file_get_surfaces_decode_error_concrete :
    fileGet [("k", (0 : Nat))]
        (fun _ => (Except.error "gob: corrupt" : Except String (decodedVal Nat))) "k" 0 =
      .error (.decodeFailure "decode: gob: corrupt") ∧
    fileGet [("k", (0 : Nat))]
        (fun _ => (Except.error "gob: corrupt" : Except String (decodedVal Nat))) "k" 0 ≠
      .error .notExist := by
  constructor
  · rfl
  · intro h
    have h2 := Except.error.inj h
    exact fileError.noConfusion h2

/-- C6 amended: when the stored bytes for a present key make the decoder
itself fail, `fileStore.Get` returns the wrapped decode error, which is
never `NotFound`; only when the bytes decode successfully to a value that
is not the expected envelope (`*fileItem`) does `Get` signal `NotFound`. -/
theorem file_get_decode_behavior {Val Bin : Type}
    (files : List (String × Bin)) (decoder : Bin → Except String (decodedVal Val))
    (key : String) (now : Int) (binary : Bin)
    (hfound : files.lookup key = some binary) :
    (∀ e, decoder binary = .error e →
      fileGet files decoder key now = .error (.decodeFailure ("decode: " ++ e)) ∧
        fileGet files decoder key now ≠ .error .notExist) ∧
    (decoder binary = .ok .foreign →
      fileGet files decoder key now = .error .notExist) := by
  constructor
  · intro e hdec
    have hval : fileGet files decoder key now = .error (.decodeFailure ("decode: " ++ e)) := by
      simp [fileGet, fileRead, hfound, hdec]
    refine ⟨hval, ?_⟩
    rw [hval]
    intro h
    exact fileError.noConfusion (Except.error.inj h)
  · intro hdec
    simp [fileGet, fileRead, hfound, hdec]

/-- Witness for C6's theorem at a concrete input: key `"k"` stored with a
binary on which the decoder fails with `"boom"`, and a second decoder that
returns a non-envelope value. -/
theorem file_get_decode_behavior_witness :
    (fileGet [("k", (7 : Nat))]
        (fun _ => (Except.error "boom" : Except String (decodedVal Nat))) "k" 3 =
      .error (.decodeFailure "decode: boom")) ∧
    (fileGet [("k", (7 : Nat))]
        (fun _ => (Except.ok .foreign : Except String (decodedVal Nat))) "k" 3 =
      .error .notExist) := by
  constructor
  · exact ((file_get_decode_behavior [("k", (7 : Nat))] (fun _ => .error "boom")
      "k" 3 7 rfl).1 "boom" rfl).1
  · exact (file_get_decode_behavior [("k", (7 : Nat))] (fun _ => .ok .foreign)
      "k" 3 7 rfl).2 rfl

/-- C8: the scheduler performs exactly one `GC` invocation before its
first wait, one further invocation per elapsed interval observed before
the first stop signal, and none after the stop signal is observed: for
every observation sequence the total count is `1 + ticksBeforeStop`, and
the goroutine has returned exactly when a `stop` was observed. -/
theorem startGC_trace_spec (evs : List gcSignal) :
    startGCLoop evs = (1 + ticksBeforeStop evs, sawStop evs) := by
  induction evs with
  | nil => rfl
  | cons e rest ih =>
    cases e with
    | stop => rfl
    | tick => simp [startGCLoop, ticksBeforeStop, sawStop, ih]; omega

end FlamegoCache
